import Mathlib

/-!
# A resizable chained hash table (`handsOn10.c`)

Shallow embedding of the hash table engine of `src/handsOn10.c` and proofs of its
contract.

Modelling conventions.

* C `int` values (keys, values, `capacity`, `size`, bucket indices) are Lean `Int`s.  The
  engine itself performs only `size++`, `size--`, `capacity * 2` and `capacity / 2` on
  them; the development assumes these stay inside the `int` range (no wrap-around is
  modelled for them) and that every allocation succeeds (`exit(1)` is never reached).
* A bucket chain, in C a doubly linked list of `HashNode`s reached from `buckets[i]`
  through `next`, is the Lean list of its nodes in `next` order, head first.  The bucket
  array is the list of its chains.  The `prev` links are not represented in this model:
  every splice of the source sets `prev` to the inverse of `next` (`createNode` and the
  rehash loop clear it, a head insertion sets `head->prev`, the unsplice repairs both
  neighbours), so unlinking `current` through `current->prev` removes exactly that node
  from the list.
* The links themselves are the subject of a second, pointer-level embedding of the same
  functions (`PNode`, `PTable`, `pInsert`, `pRemoveKey`, `pRehash`): memory is a list of
  cells addressed by their rank, `malloc` appends a cell, `free` empties one, and every
  field assignment of the source is a write to a cell.  Its loops carry a fuel equal to
  the number of cells; a run that follows a dangling pointer, leaves the bucket array or
  exhausts the fuel yields `none`.
* `loadFactor = (double)size / capacity` is only ever compared with `0.75` and `0.25`.  For
  `int` operands with `capacity > 0` the rounded quotient is above `0.75` exactly when
  `3 * capacity < 4 * size`, and below `0.25` exactly when `4 * size < capacity` (the two
  constants are exact doubles and the quotient differs from them by at least
  `1 / (4 * capacity)`), so the comparisons are modelled by these integer inequalities.
* Reading or writing `buckets[i]` with `i` outside `[0, capacity)` is undefined behaviour
  in C.  The model is total: such a read yields the empty chain and such a write is
  dropped.  Every theorem about chains assumes a hash function whose results are in
  range, so that case never arises there.
-/

namespace HandsOn10

/-- Node of a chain (`struct HashNode`); the `next`/`prev` links are the list structure. -/
structure HashNode where
  key : Int
  value : Int
deriving DecidableEq, Repr

/-- The table (`struct HashTable`): bucket array, capacity, size and the injected hash. -/
structure HashTable where
  buckets : List (List HashNode)
  capacity : Int
  size : Int
  hashFunction : Int → Int → Int

/-- Allocation of a fresh node: `createNode(key, value)`. -/
def createNode (key value : Int) : HashNode := ⟨key, value⟩

/-- Read of `buckets[index]`. -/
def bucketAt (buckets : List (List HashNode)) (index : Int) : List HashNode :=
  if 0 ≤ index then buckets.getD index.toNat [] else []

/-- Write `buckets[index] = chain`. -/
def setBucket (buckets : List (List HashNode)) (index : Int) (chain : List HashNode) :
    List (List HashNode) :=
  if 0 ≤ index then buckets.set index.toNat chain else buckets

/-- Table made by `createHashTable(capacity, hashFunction)`: `calloc`ed (all empty) buckets. -/
def createHashTable (capacity : Int) (hashFunction : Int → Int → Int) : HashTable :=
  { buckets := List.replicate capacity.toNat []
    capacity := capacity
    size := 0
    hashFunction := hashFunction }

/-- The scan `while (current) { if (current->key == key) { current->value = value; return; }
current = current->next; }` shared by `insert` and `insertWithoutResize`: `some chain`
when a node was found and overwritten, `none` when the scan fell off the end. -/
def chainUpdate : List HashNode → Int → Int → Option (List HashNode)
  | [], _, _ => none
  | current :: rest, key, value =>
    if current.key = key then some ({ current with value := value } :: rest)
    else (chainUpdate rest key value).map (fun r => current :: r)

/-- The scan of `search`: value of the first node of the chain carrying `key`. -/
def chainSearch : List HashNode → Int → Option Int
  | [], _ => none
  | current :: rest, key =>
    if current.key = key then some current.value else chainSearch rest key

/-- The scan of `removeKey` with its unsplice of the first node carrying `key`:
`some chain` is the chain without that node, `none` means no node carried `key`. -/
def chainRemove : List HashNode → Int → Option (List HashNode)
  | [], _ => none
  | current :: rest, key =>
    if current.key = key then some rest
    else (chainRemove rest key).map (fun r => current :: r)

/-- The test `loadFactor > 0.75` for `loadFactor = (double)size / capacity`. -/
def loadFactorAbove (size capacity : Int) : Bool := decide (3 * capacity < 4 * size)

/-- The test `loadFactor < 0.25` for `loadFactor = (double)size / capacity`. -/
def loadFactorBelow (size capacity : Int) : Bool := decide (4 * size < capacity)

/-- Body of the inner `while (node)` loop of a rehash for one node: the node is pushed at
the head of `newHt.buckets[newIndex]` and `newHt.size` is incremented. -/
def rehashNode (newHt : HashTable) (node : HashNode) : HashTable :=
  let newIndex := newHt.hashFunction node.key newHt.capacity
  { newHt with
    buckets := setBucket newHt.buckets newIndex (node :: bucketAt newHt.buckets newIndex)
    size := newHt.size + 1 }

/-- The resize-and-rehash block that the source repeats verbatim in the grow branch of
`insert`, the shrink branch of `insert` and the shrink branch of `removeKey`: a fresh empty
table of `newCapacity` buckets receives every node of buckets `0 .. capacity - 1`, each
chain walked head first; buckets, capacity and size are then taken from it. -/
def rehash (ht : HashTable) (newCapacity : Int) : HashTable :=
  let newHt : HashTable :=
    { buckets := List.replicate newCapacity.toNat []
      capacity := newCapacity
      size := 0
      hashFunction := ht.hashFunction }
  let filled := (List.range ht.capacity.toNat).foldl
    (fun acc (i : Nat) => (bucketAt ht.buckets (i : Int)).foldl rehashNode acc) newHt
  { ht with buckets := filled.buckets, capacity := filled.capacity, size := filled.size }

/-- Function `insertWithoutResize(ht, key, value)`. -/
def insertWithoutResize (ht : HashTable) (key value : Int) : HashTable :=
  let index := ht.hashFunction key ht.capacity
  match chainUpdate (bucketAt ht.buckets index) key value with
  | some chain => { ht with buckets := setBucket ht.buckets index chain }
  | none =>
    { ht with
      buckets := setBucket ht.buckets index (createNode key value :: bucketAt ht.buckets index)
      size := ht.size + 1 }

/-- Function `insert(ht, key, value)`.  `loadFactor` is computed once, after the increment of
`size` and before the grow test, and the same value is used by the shrink test, which reads
the capacity again. -/
def insert (ht : HashTable) (key value : Int) : HashTable :=
  let index := ht.hashFunction key ht.capacity
  match chainUpdate (bucketAt ht.buckets index) key value with
  | some chain => { ht with buckets := setBucket ht.buckets index chain }
  | none =>
    let ht1 : HashTable :=
      { ht with
        buckets :=
          setBucket ht.buckets index (createNode key value :: bucketAt ht.buckets index)
        size := ht.size + 1 }
    let above := loadFactorAbove ht1.size ht1.capacity
    let below := loadFactorBelow ht1.size ht1.capacity
    let ht2 := if above then rehash ht1 (ht1.capacity * 2) else ht1
    if 10 < ht2.capacity ∧ below then rehash ht2 (Int.tdiv ht2.capacity 2) else ht2

/-- Function `search(ht, key, &value)`: `some v` stands for `true` with `*value = v`,
`none` for `false`. -/
def search (ht : HashTable) (key : Int) : Option Int :=
  chainSearch (bucketAt ht.buckets (ht.hashFunction key ht.capacity)) key

/-- Function `removeKey(ht, key)`: the returned flag and the table after the call. -/
def removeKey (ht : HashTable) (key : Int) : Bool × HashTable :=
  let index := ht.hashFunction key ht.capacity
  match chainRemove (bucketAt ht.buckets index) key with
  | none => (false, ht)
  | some chain =>
    let ht1 : HashTable :=
      { ht with buckets := setBucket ht.buckets index chain, size := ht.size - 1 }
    if 10 < ht1.capacity ∧ loadFactorBelow ht1.size ht1.capacity
    then (true, rehash ht1 (Int.tdiv ht1.capacity 2))
    else (true, ht1)

/-- Every node of the table, bucket after bucket, each chain head first. -/
def entries (ht : HashTable) : List HashNode := ht.buckets.flatten

/-- The contract of a hash strategy: an index in `[0, capacity)` for each capacity `≥ 1`. -/
def InRange (h : Int → Int → Int) : Prop :=
  ∀ key capacity : Int, 1 ≤ capacity → 0 ≤ h key capacity ∧ h key capacity < capacity

/-- Tables reachable from `createHashTable(c, h)` by `insert` and `removeKey` calls. -/
inductive Reachable (c : Int) (h : Int → Int → Int) : HashTable → Prop
  | create : Reachable c h (createHashTable c h)
  | insert (ht : HashTable) (key value : Int) :
      Reachable c h ht → Reachable c h (insert ht key value)
  | removeKey (ht : HashTable) (key : Int) :
      Reachable c h ht → Reachable c h (removeKey ht key).2

/-- A hash strategy that folds every key into `[0, capacity)` (Euclidean remainder). -/
def foldedHash (key capacity : Int) : Int := key % capacity

/-- Effect of the update path on one node: a node carrying `key` gets `value`. -/
def overwrite (key value : Int) (n : HashNode) : HashNode :=
  if n.key = key then { n with value := value } else n

/-- The keys of a list of nodes. -/
def keysOf (l : List HashNode) : List Int := l.map HashNode.key

/-- Representation invariant of the engine for the hash strategy `h`. -/
structure WF (h : Int → Int → Int) (ht : HashTable) : Prop where
  hash : ht.hashFunction = h
  cap : 1 ≤ ht.capacity
  len : ht.buckets.length = ht.capacity.toNat
  place : ∀ (i : Nat) (n : HashNode), n ∈ ht.buckets.getD i [] → h n.key ht.capacity = (i : Int)
  nodup : (keysOf (entries ht)).Nodup
  size : ht.size = ((entries ht).length : Int)

/-- What the rehash loop maintains on the table under construction. -/
structure Filling (h : Int → Int → Int) (newCapacity : Int) (acc : HashTable) : Prop where
  hash : acc.hashFunction = h
  cap : acc.capacity = newCapacity
  len : acc.buckets.length = newCapacity.toNat
  place : ∀ (i : Nat) (n : HashNode), n ∈ acc.buckets.getD i [] → h n.key newCapacity = (i : Int)
  size : acc.size = ((entries acc).length : Int)

/-- The resize tests that `insert` runs after it has linked a new node and incremented
`size` (the tail of `insert`, from the computation of `loadFactor` on). -/
def afterInsert (ht1 : HashTable) : HashTable :=
  let above := loadFactorAbove ht1.size ht1.capacity
  let below := loadFactorBelow ht1.size ht1.capacity
  let ht2 := if above then rehash ht1 (ht1.capacity * 2) else ht1
  if 10 < ht2.capacity ∧ below then rehash ht2 (Int.tdiv ht2.capacity 2) else ht2

/-- The shrink test that `removeKey` runs after it has unlinked a node and decremented
`size`. -/
def afterRemove (ht1 : HashTable) : HashTable :=
  if 10 < ht1.capacity ∧ loadFactorBelow ht1.size ht1.capacity
  then rehash ht1 (Int.tdiv ht1.capacity 2) else ht1

/-- Table left by the update path: the node carrying `k` has its value overwritten. -/
def updated (ht : HashTable) (k v : Int) : HashTable :=
  { ht with buckets := ht.buckets.map (List.map (overwrite k v)) }

/-- Table after a new node for `k` has been linked at the head of its chain and `size`
incremented, before any resize test. -/
def linked (ht : HashTable) (k v : Int) : HashTable :=
  { ht with
    buckets := setBucket ht.buckets (ht.hashFunction k ht.capacity)
      (createNode k v :: bucketAt ht.buckets (ht.hashFunction k ht.capacity))
    size := ht.size + 1 }

/-- Table after the node carrying `k` has been unlinked and `size` decremented, before the
shrink test. -/
def unlinked (ht : HashTable) (k : Int) : HashTable :=
  { ht with
    buckets := ht.buckets.map (List.filter (fun n => decide (n.key ≠ k)))
    size := ht.size - 1 }

/-- Function `simpleHash(key, capacity)`: C's `key % capacity`, the remainder of the
division truncated toward zero, which has the sign of `key`. -/
def simpleHash (key capacity : Int) : Int := Int.tmod key capacity

/-- A mathematical integer reduced modulo `2 ^ 32` to a signed 32-bit `int`. -/
def wrapInt32 (x : Int) : Int := (x + 2147483648) % 4294967296 - 2147483648

/-- Function `improvedHash(key, capacity)`.  The two multiplications by `0x45d9f3b` wrap
modulo `2 ^ 32` as signed 32-bit values, `>>` is the arithmetic right shift, `^` is the
bitwise exclusive or of two's complement integers and `%` is C's truncating remainder. -/
def improvedHash (key capacity : Int) : Int :=
  let key1 := wrapInt32 (Int.xor (key >>> 16) key * 0x45d9f3b)
  let key2 := wrapInt32 (Int.xor (key1 >>> 16) key1 * 0x45d9f3b)
  let key3 := Int.xor (key2 >>> 16) key2
  Int.tmod key3 capacity

/-- The loop `for (int i = 0; i < n; i++) insert(ht, i, i * 100);` of `main`. -/
def insertKeys (ht : HashTable) (n : Nat) : HashTable :=
  (List.range n).foldl (fun t (i : Nat) => insert t (i : Int) ((i : Int) * 100)) ht

/-- The table before the loop of `insertKeys` and after each of its `n` iterations. -/
def insertKeysTrace (ht : HashTable) (n : Nat) : List HashTable :=
  (List.range n).scanl (fun t (i : Nat) => insert t (i : Int) ((i : Int) * 100)) ht

/-- The loop `for (int i = 0; i < n; i++) removeKey(ht, i);` of `main`. -/
def removeKeys (ht : HashTable) (n : Nat) : HashTable :=
  (List.range n).foldl (fun t (i : Nat) => (removeKey t (i : Int)).2) ht

/-- The table before the loop of `removeKeys` (paired with `true`) and, for each of its `n`
iterations, the flag returned by `removeKey` and the table it leaves. -/
def removeKeysTrace (ht : HashTable) (n : Nat) : List (Bool × HashTable) :=
  (List.range n).scanl (fun p (i : Nat) => removeKey p.2 (i : Int)) (true, ht)

/-- Consecutive pairs of a list. -/
def consecutive {α : Type} (l : List α) : List (α × α) := l.zip l.tail

/-! ## The pointer-level engine -/

/-- Node in memory (`struct HashNode` with its links): an address is a natural number and
`none` is `NULL`. -/
structure PNode where
  key : Int
  value : Int
  next : Option Nat
  prev : Option Nat
deriving DecidableEq, Repr

/-- The table with its memory: cell `a` of `mem` holds the node allocated at address `a`, or
`none` once it has been freed; `buckets[i]` is the address of the head of chain `i`. -/
structure PTable where
  mem : List (Option PNode)
  buckets : List (Option Nat)
  capacity : Int
  size : Int
  hashFunction : Int → Int → Int

/-- Dereference of the pointer `a`: `none` for an address that holds no live node. -/
def readNode (mem : List (Option PNode)) (a : Nat) : Option PNode := mem.getD a none

/-- A field assignment `a->field = ...` through a pointer: fails on a dangling pointer. -/
def modifyNode (mem : List (Option PNode)) (a : Nat) (f : PNode → PNode) :
    Option (List (Option PNode)) :=
  match readNode mem a with
  | none => none
  | some n => some (mem.set a (some (f n)))

/-- Read of `buckets[index]` in the bucket array of heads: `none` when out of bounds. -/
def headAt (buckets : List (Option Nat)) (index : Int) : Option (Option Nat) :=
  if 0 ≤ index then buckets[index.toNat]? else none

/-- Pointer-level `createHashTable(capacity, hashFunction)`: no node allocated, every head
`NULL`. -/
def pCreateHashTable (capacity : Int) (hashFunction : Int → Int → Int) : PTable :=
  { mem := []
    buckets := List.replicate capacity.toNat none
    capacity := capacity
    size := 0
    hashFunction := hashFunction }

/-- The scan `while (current) { if (current->key == key) ...; current = current->next; }`
that opens `insert`, `search` and `removeKey`, started at `current`: `some (some a)` when the
node at address `a` is the first one carrying `key`, `some none` when the scan reached
`NULL`.  The fuel bounds the number of nodes visited; `none` is returned when it runs out
or a dangling pointer is followed. -/
def pFind (mem : List (Option PNode)) (key : Int) : Nat → Option Nat → Option (Option Nat)
  | _, none => some none
  | 0, some _ => none
  | fuel + 1, some a =>
    match readNode mem a with
    | none => none
    | some node => if node.key = key then some (some a) else pFind mem key fuel node.next

/-- The head splice that the source performs in `insert` and in each rehash loop:
`node->next = buckets[index]; if (buckets[index]) buckets[index]->prev = node;
buckets[index] = node;` for the node at address `a`. -/
def pPush (mem : List (Option PNode)) (buckets : List (Option Nat)) (index : Int) (a : Nat) :
    Option (List (Option PNode) × List (Option Nat)) :=
  match headAt buckets index with
  | none => none
  | some head =>
    match modifyNode mem a (fun n => { n with next := head }) with
    | none => none
    | some mem1 =>
      match head with
      | none => some (mem1, buckets.set index.toNat (some a))
      | some hd =>
        match modifyNode mem1 hd (fun n => { n with prev := some a }) with
        | none => none
        | some mem2 => some (mem2, buckets.set index.toNat (some a))

/-- The inner loop `while (node) { ... node = next; }` of a rehash, started at `node`, on
the state made of the memory, the new bucket array and `newHt.size`: each node has its
links cleared, is spliced at the head of its new bucket and counted. -/
def pRehashChain (h : Int → Int → Int) (newCapacity : Int) :
    Nat → Option Nat → List (Option PNode) × List (Option Nat) × Int →
      Option (List (Option PNode) × List (Option Nat) × Int)
  | _, none, st => some st
  | 0, some _, _ => none
  | fuel + 1, some a, (mem, newBuckets, newSize) =>
    match readNode mem a with
    | none => none
    | some node =>
      match pPush (mem.set a (some { node with next := none, prev := none })) newBuckets
          (h node.key newCapacity) a with
      | none => none
      | some (mem2, newBuckets2) =>
        pRehashChain h newCapacity fuel node.next (mem2, newBuckets2, newSize + 1)

/-- The outer loop `for (int i = 0; i < ht->capacity; i++)` of a rehash over the old bucket
array `buckets`, for the indices still to visit. -/
def pRehashBuckets (h : Int → Int → Int) (newCapacity : Int) (buckets : List (Option Nat))
    (fuel : Nat) :
    List Nat → List (Option PNode) × List (Option Nat) × Int →
      Option (List (Option PNode) × List (Option Nat) × Int)
  | [], st => some st
  | i :: is, st =>
    match headAt buckets (i : Int) with
    | none => none
    | some head =>
      match pRehashChain h newCapacity fuel head st with
      | none => none
      | some st2 => pRehashBuckets h newCapacity buckets fuel is st2

/-- Pointer-level resize-and-rehash block (grow branch of `insert`, shrink branch of
`insert`, shrink branch of `removeKey`). -/
def pRehash (ht : PTable) (newCapacity : Int) : Option PTable :=
  match pRehashBuckets ht.hashFunction newCapacity ht.buckets ht.mem.length
      (List.range ht.capacity.toNat)
      (ht.mem, List.replicate newCapacity.toNat none, 0) with
  | none => none
  | some (mem, newBuckets, newSize) =>
    some { ht with mem := mem, buckets := newBuckets, capacity := newCapacity, size := newSize }

/-- Pointer-level `insert(ht, key, value)`; `none` stands for a run that follows a dangling
pointer, indexes the bucket array out of bounds or does not terminate. -/
def pInsert (ht : PTable) (key value : Int) : Option PTable :=
  let index := ht.hashFunction key ht.capacity
  match headAt ht.buckets index with
  | none => none
  | some head =>
    match pFind ht.mem key ht.mem.length head with
    | none => none
    | some (some a) =>
      match modifyNode ht.mem a (fun n => { n with value := value }) with
      | none => none
      | some mem1 => some { ht with mem := mem1 }
    | some none =>
      match pPush (ht.mem ++ [some ⟨key, value, none, none⟩]) ht.buckets index
          ht.mem.length with
      | none => none
      | some (mem2, buckets2) =>
        let ht1 : PTable := { ht with mem := mem2, buckets := buckets2, size := ht.size + 1 }
        let above := loadFactorAbove ht1.size ht1.capacity
        let below := loadFactorBelow ht1.size ht1.capacity
        match (if above then pRehash ht1 (ht1.capacity * 2) else some ht1) with
        | none => none
        | some ht2 =>
          if 10 < ht2.capacity ∧ below then pRehash ht2 (Int.tdiv ht2.capacity 2)
          else some ht2

/-- The unsplice of `removeKey` for the node `current` at address `a`:
`if (current->prev) current->prev->next = current->next; else ht->buckets[index] =
current->next; if (current->next) current->next->prev = current->prev; free(current);`. -/
def pUnsplice (mem : List (Option PNode)) (buckets : List (Option Nat)) (index : Int)
    (a : Nat) (current : PNode) : Option (List (Option PNode) × List (Option Nat)) :=
  match (match current.prev with
      | some p =>
        (modifyNode mem p (fun n => { n with next := current.next })).map
          (fun m => (m, buckets))
      | none => some (mem, buckets.set index.toNat current.next)) with
  | none => none
  | some (mem1, buckets1) =>
    match (match current.next with
        | some nx => modifyNode mem1 nx (fun n => { n with prev := current.prev })
        | none => some mem1) with
    | none => none
    | some mem2 => some (mem2.set a none, buckets1)

/-- Pointer-level `removeKey(ht, key)`: the returned flag and the table after the call. -/
def pRemoveKey (ht : PTable) (key : Int) : Option (Bool × PTable) :=
  let index := ht.hashFunction key ht.capacity
  match headAt ht.buckets index with
  | none => none
  | some head =>
    match pFind ht.mem key ht.mem.length head with
    | none => none
    | some none => some (false, ht)
    | some (some a) =>
      match readNode ht.mem a with
      | none => none
      | some current =>
        match pUnsplice ht.mem ht.buckets index a current with
        | none => none
        | some (mem3, buckets1) =>
          let ht1 : PTable :=
            { ht with mem := mem3, buckets := buckets1, size := ht.size - 1 }
          if 10 < ht1.capacity ∧ loadFactorBelow ht1.size ht1.capacity
          then (pRehash ht1 (Int.tdiv ht1.capacity 2)).map (fun t => (true, t))
          else some (true, ht1)

/-- The cells `addrs`, in this order, are linked from the pointer `p` to the pointer `q`:
`p` is the first address, each node's `next` is the following address (`q` after the last)
and each node's `prev` is the preceding address (`prev` for the first). -/
def Seg (mem : List (Option PNode)) :
    Option Nat → Option Nat → List Nat → Option Nat → Prop
  | p, _, [], q => p = q
  | p, prev, a :: rest, q =>
    p = some a ∧ ∃ node, readNode mem a = some node ∧ node.prev = prev ∧
      Seg mem node.next (some a) rest q

/-- The `prev` pointer expected by the cell that follows the cells `l`. -/
def lastOr (prev : Option Nat) (l : List Nat) : Option Nat :=
  match l.getLast? with
  | some a => some a
  | none => prev

/-- The consistency of one bucket chain as the data model words it, for the chain made of
the cells `addrs` from the head on: the bucket head is the first cell, the head node has
`prev == NULL`, the last node has `next == NULL`, and each node's `next` is the following
cell, whose `prev` points back to it. -/
def IsDoublyLinked (mem : List (Option PNode)) (head : Option Nat) (addrs : List Nat) : Prop :=
  head = addrs.head? ∧
    ∀ j : Nat, j < addrs.length → ∃ node, (addrs[j]?).bind (readNode mem) = some node ∧
      node.next = addrs[j + 1]? ∧ node.prev = (if j = 0 then none else addrs[j - 1]?)

/-- Every head of `heads` starts the doubly linked chain made of the cells of the list of
the same rank in `L`. -/
def Chains (mem : List (Option PNode)) (heads : List (Option Nat)) (L : List (List Nat)) :
    Prop :=
  heads.length = L.length ∧
    ∀ i : Nat, Seg mem (heads.getD i none) none (L.getD i []) none

/-- Representation invariant of the pointer-level table, for the chains `L`. -/
structure PWF (h : Int → Int → Int) (ht : PTable) (L : List (List Nat)) : Prop where
  hash : ht.hashFunction = h
  cap : 1 ≤ ht.capacity
  len : ht.buckets.length = ht.capacity.toNat
  chains : Chains ht.mem ht.buckets L
  nodup : L.flatten.Nodup

/-- Pointer-level tables reachable from `createHashTable(c, h)` by `insert` and `removeKey`
calls that return. -/
inductive PReachable (c : Int) (h : Int → Int → Int) : PTable → Prop
  | create : PReachable c h (pCreateHashTable c h)
  | insert (ht : PTable) (key value : Int) (ht2 : PTable) :
      PReachable c h ht → pInsert ht key value = some ht2 → PReachable c h ht2
  | removeKey (ht : PTable) (key : Int) (r : Bool × PTable) :
      PReachable c h ht → pRemoveKey ht key = some r → PReachable c h r.2

/-! ## Chains -/

theorem overwrite_key (k v : Int) (n : HashNode) : (overwrite k v n).key = n.key := by
  unfold overwrite; split <;> rfl

theorem keysOf_map_overwrite (k v : Int) (l : List HashNode) :
    keysOf (l.map (overwrite k v)) = keysOf l := by
  simp [keysOf, List.map_map, Function.comp_def, overwrite_key]

theorem map_overwrite_of_not_mem {k v : Int} {l : List HashNode} (h : k ∉ keysOf l) :
    l.map (overwrite k v) = l := by
  induction l with
  | nil => rfl
  | cons a l ih =>
    simp only [keysOf, List.map_cons, List.mem_cons, not_or] at h
    have ha : overwrite k v a = a := by
      unfold overwrite; rw [if_neg (fun e => h.1 e.symm)]
    simp only [List.map_cons, ha]
    rw [ih (by simpa [keysOf] using h.2)]

theorem filter_ne_of_not_mem {k : Int} {l : List HashNode} (h : k ∉ keysOf l) :
    l.filter (fun n => decide (n.key ≠ k)) = l := by
  rw [List.filter_eq_self]
  intro a ha
  have : a.key ≠ k := fun e => h (by rw [← e]; exact List.mem_map_of_mem _ ha)
  simpa using this

theorem chainUpdate_none {c : List HashNode} {k v : Int} (h : k ∉ keysOf c) :
    chainUpdate c k v = none := by
  induction c with
  | nil => rfl
  | cons a c ih =>
    simp only [keysOf, List.map_cons, List.mem_cons, not_or] at h
    have e : ¬ a.key = k := fun e => h.1 e.symm
    have hc : k ∉ keysOf c := h.2
    simp only [chainUpdate, if_neg e, ih hc, Option.map_none']

theorem chainUpdate_some {c : List HashNode} {k v : Int} (h : k ∈ keysOf c)
    (hn : (keysOf c).Nodup) : chainUpdate c k v = some (c.map (overwrite k v)) := by
  induction c with
  | nil => simp [keysOf] at h
  | cons a c ih =>
    simp only [keysOf, List.map_cons, List.nodup_cons] at hn
    by_cases e : a.key = k
    · have hk : k ∉ keysOf c := by rw [← e]; exact hn.1
      simp only [chainUpdate, if_pos e, List.map_cons, map_overwrite_of_not_mem hk]
      simp [overwrite, e]
    · have hk : k ∈ keysOf c := by
        simp only [keysOf, List.map_cons, List.mem_cons] at h
        rcases h with h | h
        · exact absurd h.symm e
        · exact h
      simp only [chainUpdate, if_neg e, ih hk hn.2, Option.map_some', List.map_cons]
      simp [overwrite, e]

theorem chainRemove_none {c : List HashNode} {k : Int} (h : k ∉ keysOf c) :
    chainRemove c k = none := by
  induction c with
  | nil => rfl
  | cons a c ih =>
    simp only [keysOf, List.map_cons, List.mem_cons, not_or] at h
    have e : ¬ a.key = k := fun e => h.1 e.symm
    have hc : k ∉ keysOf c := h.2
    simp only [chainRemove, if_neg e, ih hc, Option.map_none']

theorem chainRemove_some {c : List HashNode} {k : Int} (h : k ∈ keysOf c)
    (hn : (keysOf c).Nodup) :
    chainRemove c k = some (c.filter (fun n => decide (n.key ≠ k))) := by
  induction c with
  | nil => simp [keysOf] at h
  | cons a c ih =>
    simp only [keysOf, List.map_cons, List.nodup_cons] at hn
    by_cases e : a.key = k
    · have hk : k ∉ keysOf c := by rw [← e]; exact hn.1
      simp only [chainRemove, if_pos e]
      rw [List.filter_cons_of_neg (by simp [e]), filter_ne_of_not_mem hk]
    · have hk : k ∈ keysOf c := by
        simp only [keysOf, List.map_cons, List.mem_cons] at h
        rcases h with h | h
        · exact absurd h.symm e
        · exact h
      simp only [chainRemove, if_neg e, ih hk hn.2, Option.map_some']
      rw [List.filter_cons_of_pos (by simp [e])]

theorem chainSearch_none {c : List HashNode} {k : Int} (h : k ∉ keysOf c) :
    chainSearch c k = none := by
  induction c with
  | nil => rfl
  | cons a c ih =>
    simp only [keysOf, List.map_cons, List.mem_cons, not_or] at h
    have e : ¬ a.key = k := fun e => h.1 e.symm
    have hc : k ∉ keysOf c := h.2
    simp only [chainSearch, if_neg e, ih hc]

theorem chainSearch_mem {c : List HashNode} {k v : Int} (h : chainSearch c k = some v) :
    (⟨k, v⟩ : HashNode) ∈ c := by
  induction c with
  | nil => simp [chainSearch] at h
  | cons a c ih =>
    by_cases e : a.key = k
    · simp only [chainSearch, if_pos e, Option.some.injEq] at h
      have : a = ⟨k, v⟩ := by cases a; simp_all
      rw [this]; exact List.mem_cons_self _ _
    · simp only [chainSearch, if_neg e] at h
      exact List.mem_cons_of_mem _ (ih h)

theorem chainSearch_of_mem {c : List HashNode} {k v : Int} (h : (⟨k, v⟩ : HashNode) ∈ c)
    (hn : (keysOf c).Nodup) : chainSearch c k = some v := by
  induction c with
  | nil => simp at h
  | cons a c ih =>
    simp only [keysOf, List.map_cons, List.nodup_cons] at hn
    rcases List.mem_cons.1 h with h | h
    · subst h; simp [chainSearch]
    · have e : a.key ≠ k := by
        intro e
        apply hn.1
        rw [e]
        exact List.mem_map_of_mem HashNode.key h
      simp only [chainSearch, if_neg e]
      exact ih h hn.2

/-! ## Bucket arrays -/

theorem length_setBucket (bs : List (List HashNode)) (i : Int) (c : List HashNode) :
    (setBucket bs i c).length = bs.length := by
  unfold setBucket; split <;> simp

theorem getD_set_bucket (bs : List (List HashNode)) (i j : Nat) (c : List HashNode)
    (hi : i < bs.length) :
    (bs.set i c).getD j [] = if j = i then c else bs.getD j [] := by
  simp only [List.getD_eq_getElem?_getD, List.getElem?_set]
  by_cases e : i = j
  · subst e; simp [hi]
  · have e2 : ¬ j = i := fun h => e h.symm
    simp [e, e2]

theorem mem_of_mem_getD {bs : List (List HashNode)} {i : Nat} {n : HashNode}
    (h : n ∈ bs.getD i []) : bs.getD i [] ∈ bs := by
  by_cases hi : i < bs.length
  · rw [List.getD_eq_getElem _ _ hi]; exact List.getElem_mem hi
  · rw [List.getD_eq_default _ _ (Nat.le_of_not_lt hi)] at h; simp at h

theorem exists_getD_of_mem {bs : List (List HashNode)} {c : List HashNode} (h : c ∈ bs) :
    ∃ i, i < bs.length ∧ bs.getD i [] = c := by
  obtain ⟨i, hi, e⟩ := List.mem_iff_getElem.1 h
  exact ⟨i, hi, by rw [List.getD_eq_getElem _ _ hi]; exact e⟩

theorem flatten_eq_split (bs : List (List HashNode)) (i : Nat) (hi : i < bs.length) :
    bs.flatten = (bs.take i).flatten ++ (bs.getD i [] ++ (bs.drop (i + 1)).flatten) := by
  conv_lhs => rw [← List.take_append_drop i bs]
  rw [List.flatten_append, ← List.getElem_cons_drop bs i hi, List.flatten_cons,
    List.getD_eq_getElem _ _ hi]

theorem flatten_set_split (bs : List (List HashNode)) (i : Nat) (hi : i < bs.length)
    (c : List HashNode) :
    (bs.set i c).flatten = (bs.take i).flatten ++ (c ++ (bs.drop (i + 1)).flatten) := by
  rw [List.set_eq_take_append_cons_drop, if_pos hi, List.flatten_append, List.flatten_cons]

theorem flatten_push_perm (bs : List (List HashNode)) (i : Nat) (hi : i < bs.length)
    (n : HashNode) : ((bs.set i (n :: bs.getD i [])).flatten).Perm (n :: bs.flatten) := by
  rw [flatten_set_split bs i hi, flatten_eq_split bs i hi, List.cons_append]
  exact List.perm_middle

theorem set_eq_map (bs : List (List HashNode)) (i : Nat) (hi : i < bs.length)
    (g : List HashNode → List HashNode)
    (hg : ∀ j, j ≠ i → g (bs.getD j []) = bs.getD j []) :
    bs.set i (g (bs.getD i [])) = bs.map g := by
  apply List.ext_getElem
  · simp
  · intro j h1 h2
    have hj : j < bs.length := by simpa using h1
    rw [List.getElem_set, List.getElem_map]
    by_cases e : i = j
    · subst e; rw [if_pos rfl, List.getD_eq_getElem _ _ hi]
    · rw [if_neg e]
      have := hg j (fun h => e h.symm)
      rw [List.getD_eq_getElem _ _ hj] at this
      exact this.symm

theorem keysOf_nodup_of_mem {bs : List (List HashNode)} {c : List HashNode} (h : c ∈ bs)
    (hn : (keysOf bs.flatten).Nodup) : (keysOf c).Nodup :=
  List.Nodup.sublist ((List.sublist_flatten_of_mem h).map HashNode.key) hn

/-! ## The rehash loop -/

theorem map_bucketAt_range (bs : List (List HashNode)) :
    (List.range bs.length).map (fun i : Nat => bucketAt bs (i : Int)) = bs := by
  apply List.ext_getElem
  · simp
  · intro j h1 h2
    rw [List.getElem_map, List.getElem_range]
    unfold bucketAt
    rw [if_pos (Int.ofNat_nonneg j), Int.toNat_ofNat, List.getD_eq_getElem _ _ h2]

theorem foldl_range_buckets (bs : List (List HashNode)) (f : HashTable → HashNode → HashTable)
    (a : HashTable) :
    (List.range bs.length).foldl (fun acc (i : Nat) => (bucketAt bs (i : Int)).foldl f acc) a
      = bs.flatten.foldl f a := by
  rw [List.foldl_flatten]
  conv_rhs => rw [← map_bucketAt_range bs]
  rw [List.foldl_map]

theorem index_lt {h : Int → Int → Int} (hh : InRange h) {c : Int} (hc : 1 ≤ c) (k : Int) :
    0 ≤ h k c ∧ (h k c).toNat < c.toNat := by
  obtain ⟨h0, h1⟩ := hh k c hc
  refine ⟨h0, ?_⟩
  omega

theorem rehashNode_filling {h : Int → Int → Int} (hh : InRange h) {c : Int} (hc : 1 ≤ c)
    {acc : HashTable} (hf : Filling h c acc) (n : HashNode) :
    Filling h c (rehashNode acc n) ∧ (entries (rehashNode acc n)).Perm (n :: entries acc) := by
  obtain ⟨h0, h1⟩ := index_lt hh hc n.key
  have hi : (h n.key c).toNat < acc.buckets.length := by rw [hf.len]; exact h1
  have eb : (rehashNode acc n).buckets
      = acc.buckets.set (h n.key c).toNat (n :: acc.buckets.getD (h n.key c).toNat []) := by
    simp only [rehashNode, hf.hash, hf.cap, setBucket, bucketAt, if_pos h0]
  have hp : (entries (rehashNode acc n)).Perm (n :: entries acc) := by
    unfold entries; rw [eb]; exact flatten_push_perm _ _ hi n
  refine ⟨⟨?_, ?_, ?_, ?_, ?_⟩, hp⟩
  · simp only [rehashNode]; exact hf.hash
  · simp only [rehashNode]; exact hf.cap
  · rw [eb, List.length_set]; exact hf.len
  · intro i m hm
    rw [eb, getD_set_bucket _ _ _ _ hi] at hm
    by_cases e : i = (h n.key c).toNat
    · rw [if_pos e, List.mem_cons] at hm
      rcases hm with hm | hm
      · rw [hm, e]; exact (Int.toNat_of_nonneg h0).symm
      · rw [← e] at hm; exact hf.place i m hm
    · rw [if_neg e] at hm; exact hf.place i m hm
  · rw [hp.length_eq]
    simp only [rehashNode, List.length_cons, Nat.cast_add, Nat.cast_one, hf.size]

theorem foldl_rehashNode_filling {h : Int → Int → Int} (hh : InRange h) {c : Int} (hc : 1 ≤ c)
    (l : List HashNode) {acc : HashTable} (hf : Filling h c acc) :
    Filling h c (l.foldl rehashNode acc) ∧
      (entries (l.foldl rehashNode acc)).Perm (l ++ entries acc) := by
  induction l generalizing acc with
  | nil => exact ⟨hf, List.Perm.refl _⟩
  | cons n l ih =>
    obtain ⟨hf1, hp1⟩ := rehashNode_filling hh hc hf n
    obtain ⟨hf2, hp2⟩ := ih hf1
    refine ⟨hf2, hp2.trans ?_⟩
    rw [List.cons_append]
    exact (List.Perm.append_left l hp1).trans List.perm_middle

theorem filling_empty (h : Int → Int → Int) (c : Int) :
    Filling h c { buckets := List.replicate c.toNat [], capacity := c, size := 0,
                  hashFunction := h } := by
  refine ⟨rfl, rfl, by simp, ?_, by simp [entries]⟩
  intro i n hn
  simp only [List.getD_eq_getElem?_getD, List.getElem?_replicate] at hn
  split at hn <;> simp at hn

/-- The rehash block on a table whose bucket array has `capacity` slots: every node is
kept, each lands in the bucket of its hash for the new capacity, and the recounted size is
the number of nodes. -/
theorem rehash_spec {h : Int → Int → Int} (hh : InRange h) {c : Int} (hc : 1 ≤ c)
    {ht : HashTable} (hhash : ht.hashFunction = h)
    (hlen : ht.buckets.length = ht.capacity.toNat) :
    Filling h c (rehash ht c) ∧ (entries (rehash ht c)).Perm (entries ht) := by
  have key := foldl_rehashNode_filling hh hc (entries ht) (filling_empty h c)
  have e : (List.range ht.capacity.toNat).foldl
      (fun acc (i : Nat) => (bucketAt ht.buckets (i : Int)).foldl rehashNode acc)
      { buckets := List.replicate c.toNat [], capacity := c, size := 0,
        hashFunction := ht.hashFunction }
      = (entries ht).foldl rehashNode
        { buckets := List.replicate c.toNat [], capacity := c, size := 0,
          hashFunction := h } := by
    rw [← hlen, foldl_range_buckets, hhash]; rfl
  obtain ⟨hf, hp⟩ := key
  have hp2 : (entries (rehash ht c)).Perm (entries ht) := by
    have : entries (rehash ht c) = entries ((entries ht).foldl rehashNode
        { buckets := List.replicate c.toNat [], capacity := c, size := 0,
          hashFunction := h }) := by
      simp only [rehash, entries, e]
    rw [this]
    simpa [entries] using hp
  refine ⟨⟨?_, ?_, ?_, ?_, ?_⟩, hp2⟩
  · simp only [rehash]; exact hhash
  · simp only [rehash, e]; exact hf.cap
  · simp only [rehash, e]; exact hf.len
  · intro i n hn
    simp only [rehash, e] at hn
    exact hf.place i n hn
  · have : (rehash ht c).size = ((entries ht).foldl rehashNode
        { buckets := List.replicate c.toNat [], capacity := c, size := 0,
          hashFunction := h }).size := by
      simp only [rehash, e]
    rw [this, hf.size, hp2.length_eq, hp.length_eq]
    simp [entries]

theorem WF_of_filling {h : Int → Int → Int} {c : Int} (hc : 1 ≤ c) {ht : HashTable}
    (hf : Filling h c ht) (hn : (keysOf (entries ht)).Nodup) : WF h ht :=
  ⟨hf.hash, by rw [hf.cap]; exact hc, by rw [hf.cap]; exact hf.len,
    by rw [hf.cap]; exact hf.place, hn, hf.size⟩

theorem WF_rehash {h : Int → Int → Int} (hh : InRange h) {c : Int} (hc : 1 ≤ c)
    {ht : HashTable} (hhash : ht.hashFunction = h)
    (hlen : ht.buckets.length = ht.capacity.toNat) (hn : (keysOf (entries ht)).Nodup) :
    WF h (rehash ht c) := by
  obtain ⟨hf, hp⟩ := rehash_spec hh hc hhash hlen
  apply WF_of_filling hc hf
  exact ((hp.map HashNode.key).nodup_iff).2 hn

/-! ## Tables satisfying the invariant -/

theorem getD_map_bucket (bs : List (List HashNode)) (g : List HashNode → List HashNode)
    (hg : g [] = []) (i : Nat) : (bs.map g).getD i [] = g (bs.getD i []) := by
  by_cases hi : i < bs.length
  · rw [List.getD_eq_getElem _ _ (by simpa using hi), List.getD_eq_getElem _ _ hi,
      List.getElem_map]
  · rw [List.getD_eq_default _ _ (by simpa using hi), List.getD_eq_default _ _ (by simpa using hi),
      hg]

theorem WF.index {h : Int → Int → Int} {ht : HashTable} (w : WF h ht) (hh : InRange h)
    (k : Int) :
    0 ≤ ht.hashFunction k ht.capacity ∧
      (ht.hashFunction k ht.capacity).toNat < ht.buckets.length := by
  rw [w.hash, w.len]; exact index_lt hh w.cap k

theorem WF.mem_bucket_iff {h : Int → Int → Int} {ht : HashTable} (w : WF h ht)
    (hh : InRange h) (k : Int) :
    k ∈ keysOf (entries ht) ↔
      k ∈ keysOf (ht.buckets.getD (ht.hashFunction k ht.capacity).toNat []) := by
  obtain ⟨h0, _⟩ := w.index hh k
  constructor
  · intro hk
    obtain ⟨n, hn, rfl⟩ := List.mem_map.1 hk
    obtain ⟨c, hc, hnc⟩ := List.mem_flatten.1 hn
    obtain ⟨i, _, rfl⟩ := exists_getD_of_mem hc
    have := w.place i n hnc
    rw [w.hash, this, Int.toNat_ofNat]
    exact List.mem_map_of_mem _ hnc
  · intro hk
    obtain ⟨n, hn, rfl⟩ := List.mem_map.1 hk
    exact List.mem_map_of_mem _ (List.mem_flatten.2 ⟨_, mem_of_mem_getD hn, hn⟩)

theorem WF.bucket_nodup {h : Int → Int → Int} {ht : HashTable} (w : WF h ht) (i : Nat) :
    (keysOf (ht.buckets.getD i [])).Nodup := by
  by_cases hi : i < ht.buckets.length
  · rw [List.getD_eq_getElem _ _ hi]
    exact keysOf_nodup_of_mem (List.getElem_mem hi) w.nodup
  · rw [List.getD_eq_default _ _ (Nat.le_of_not_lt hi)]; exact List.nodup_nil

theorem WF.not_mem_other {h : Int → Int → Int} {ht : HashTable} (w : WF h ht)
    (k : Int) (j : Nat) (hj : j ≠ (ht.hashFunction k ht.capacity).toNat) :
    k ∉ keysOf (ht.buckets.getD j []) := by
  intro hk
  obtain ⟨n, hn, rfl⟩ := List.mem_map.1 hk
  have := w.place j n hn
  rw [w.hash, this, Int.toNat_ofNat] at hj
  exact hj rfl

theorem WF.search_eq_some_iff {h : Int → Int → Int} {ht : HashTable} (w : WF h ht)
    (hh : InRange h) (k v : Int) :
    search ht k = some v ↔ (⟨k, v⟩ : HashNode) ∈ entries ht := by
  obtain ⟨h0, _⟩ := w.index hh k
  unfold search bucketAt
  rw [if_pos h0]
  constructor
  · intro hs
    have hm := chainSearch_mem hs
    exact List.mem_flatten.2 ⟨_, mem_of_mem_getD hm, hm⟩
  · intro hm
    obtain ⟨c, hc, hnc⟩ := List.mem_flatten.1 hm
    obtain ⟨i, _, rfl⟩ := exists_getD_of_mem hc
    have := w.place i ⟨k, v⟩ hnc
    simp only at this
    rw [w.hash, this, Int.toNat_ofNat]
    exact chainSearch_of_mem hnc (w.bucket_nodup i)

theorem WF.search_eq_none_iff {h : Int → Int → Int} {ht : HashTable} (w : WF h ht)
    (hh : InRange h) (k : Int) :
    search ht k = none ↔ k ∉ keysOf (entries ht) := by
  constructor
  · intro hs hk
    obtain ⟨n, hn, rfl⟩ := List.mem_map.1 hk
    have := (w.search_eq_some_iff hh n.key n.value).2 hn
    rw [hs] at this; exact Option.noConfusion this
  · intro hk
    obtain ⟨h0, _⟩ := w.index hh k
    unfold search bucketAt
    rw [if_pos h0]
    exact chainSearch_none (fun hm => hk ((w.mem_bucket_iff hh k).2 hm))

/-! ## The update path -/

theorem entries_updated (ht : HashTable) (k v : Int) :
    entries (updated ht k v) = (entries ht).map (overwrite k v) := by
  simp only [entries, updated, List.map_flatten]

theorem WF.set_update_eq {h : Int → Int → Int} {ht : HashTable} (w : WF h ht)
    (hh : InRange h) (k v : Int) :
    setBucket ht.buckets (ht.hashFunction k ht.capacity)
        ((bucketAt ht.buckets (ht.hashFunction k ht.capacity)).map (overwrite k v))
      = ht.buckets.map (List.map (overwrite k v)) := by
  obtain ⟨h0, hi⟩ := w.index hh k
  unfold setBucket bucketAt
  rw [if_pos h0, if_pos h0]
  apply set_eq_map _ _ hi (List.map (overwrite k v))
  intro j hj
  exact map_overwrite_of_not_mem (w.not_mem_other k j hj)

theorem WF.insert_update {h : Int → Int → Int} {ht : HashTable} (w : WF h ht)
    (hh : InRange h) {k : Int} (hk : k ∈ keysOf (entries ht)) (v : Int) :
    insert ht k v = updated ht k v ∧ insertWithoutResize ht k v = updated ht k v := by
  obtain ⟨h0, hi⟩ := w.index hh k
  have hb := (w.mem_bucket_iff hh k).1 hk
  have hu : chainUpdate (bucketAt ht.buckets (ht.hashFunction k ht.capacity)) k v
      = some ((bucketAt ht.buckets (ht.hashFunction k ht.capacity)).map (overwrite k v)) := by
    unfold bucketAt; rw [if_pos h0]
    exact chainUpdate_some hb (w.bucket_nodup _)
  constructor
  · simp only [insert, hu, w.set_update_eq hh k v]; rfl
  · simp only [insertWithoutResize, hu, w.set_update_eq hh k v]; rfl

theorem WF.of_updated {h : Int → Int → Int} {ht : HashTable} (w : WF h ht) (k v : Int) :
    WF h (updated ht k v) := by
  refine ⟨w.hash, w.cap, ?_, ?_, ?_, ?_⟩
  · simp only [updated, List.length_map]; exact w.len
  · intro i n hn
    simp only [updated] at hn ⊢
    rw [getD_map_bucket _ _ rfl] at hn
    obtain ⟨m, hm, rfl⟩ := List.mem_map.1 hn
    rw [overwrite_key]
    exact w.place i m hm
  · rw [entries_updated, keysOf_map_overwrite]; exact w.nodup
  · rw [entries_updated, List.length_map]; exact w.size

/-! ## Linking a new node -/

theorem WF.insert_new {h : Int → Int → Int} {ht : HashTable} (w : WF h ht)
    (hh : InRange h) {k : Int} (hk : k ∉ keysOf (entries ht)) (v : Int) :
    insert ht k v = afterInsert (linked ht k v) ∧
      insertWithoutResize ht k v = linked ht k v := by
  obtain ⟨h0, hi⟩ := w.index hh k
  have hb : k ∉ keysOf (ht.buckets.getD (ht.hashFunction k ht.capacity).toNat []) :=
    fun hm => hk ((w.mem_bucket_iff hh k).2 hm)
  have hu : chainUpdate (bucketAt ht.buckets (ht.hashFunction k ht.capacity)) k v = none := by
    unfold bucketAt; rw [if_pos h0]
    exact chainUpdate_none hb
  constructor
  · simp only [insert, hu, afterInsert, linked]
  · simp only [insertWithoutResize, hu, linked]

theorem WF.entries_linked {h : Int → Int → Int} {ht : HashTable} (w : WF h ht)
    (hh : InRange h) (k v : Int) :
    (entries (linked ht k v)).Perm (⟨k, v⟩ :: entries ht) := by
  obtain ⟨h0, hi⟩ := w.index hh k
  simp only [entries, linked, setBucket, bucketAt, if_pos h0, createNode]
  exact flatten_push_perm _ _ hi _

theorem WF.of_linked {h : Int → Int → Int} {ht : HashTable} (w : WF h ht)
    (hh : InRange h) {k : Int} (hk : k ∉ keysOf (entries ht)) (v : Int) :
    WF h (linked ht k v) := by
  obtain ⟨h0, hi⟩ := w.index hh k
  have hp := w.entries_linked hh k v
  refine ⟨w.hash, w.cap, ?_, ?_, ?_, ?_⟩
  · simp only [linked, length_setBucket]; exact w.len
  · intro i n hn
    simp only [linked, setBucket, bucketAt, if_pos h0, createNode] at hn ⊢
    rw [getD_set_bucket _ _ _ _ hi] at hn
    by_cases e : i = (ht.hashFunction k ht.capacity).toNat
    · rw [if_pos e, List.mem_cons] at hn
      rcases hn with hn | hn
      · rw [hn, e, Int.toNat_of_nonneg h0, w.hash]
      · rw [← e] at hn; exact w.place i n hn
    · rw [if_neg e] at hn; exact w.place i n hn
  · have := (hp.map HashNode.key).nodup_iff.2
      (by simp only [List.map_cons, List.nodup_cons]; exact ⟨hk, w.nodup⟩)
    exact this
  · rw [hp.length_eq]
    simp only [linked, List.length_cons, Nat.cast_add, Nat.cast_one, w.size]

/-! ## Unlinking a node -/

theorem entries_unlinked (ht : HashTable) (k : Int) :
    entries (unlinked ht k) = (entries ht).filter (fun n => decide (n.key ≠ k)) := by
  simp only [entries, unlinked, List.filter_flatten]

theorem length_filter_ne {k : Int} {l : List HashNode} (hk : k ∈ keysOf l)
    (hn : (keysOf l).Nodup) :
    (l.filter (fun n => decide (n.key ≠ k))).length + 1 = l.length := by
  induction l with
  | nil => simp [keysOf] at hk
  | cons a l ih =>
    simp only [keysOf, List.map_cons, List.nodup_cons] at hn
    by_cases e : a.key = k
    · have hk2 : k ∉ keysOf l := by rw [← e]; exact hn.1
      rw [List.filter_cons_of_neg (by simp [e]), filter_ne_of_not_mem hk2, List.length_cons]
    · have hk2 : k ∈ keysOf l := by
        simp only [keysOf, List.map_cons, List.mem_cons] at hk
        rcases hk with hk | hk
        · exact absurd hk.symm e
        · exact hk
      rw [List.filter_cons_of_pos (by simp [e]), List.length_cons, ih hk2 hn.2,
        List.length_cons]

theorem not_mem_keysOf_filter (k : Int) (l : List HashNode) :
    k ∉ keysOf (l.filter (fun n => decide (n.key ≠ k))) := by
  intro hk
  obtain ⟨n, hn, e⟩ := List.mem_map.1 hk
  have := (List.mem_filter.1 hn).2
  simp only [ne_eq, decide_eq_true_eq] at this
  exact this e

theorem WF.set_remove_eq {h : Int → Int → Int} {ht : HashTable} (w : WF h ht)
    (hh : InRange h) (k : Int) :
    setBucket ht.buckets (ht.hashFunction k ht.capacity)
        ((bucketAt ht.buckets (ht.hashFunction k ht.capacity)).filter
          (fun n => decide (n.key ≠ k)))
      = ht.buckets.map (List.filter (fun n => decide (n.key ≠ k))) := by
  obtain ⟨h0, hi⟩ := w.index hh k
  unfold setBucket bucketAt
  rw [if_pos h0, if_pos h0]
  apply set_eq_map _ _ hi (List.filter (fun n => decide (n.key ≠ k)))
  intro j hj
  exact filter_ne_of_not_mem (w.not_mem_other k j hj)

theorem WF.remove_present {h : Int → Int → Int} {ht : HashTable} (w : WF h ht)
    (hh : InRange h) {k : Int} (hk : k ∈ keysOf (entries ht)) :
    removeKey ht k = (true, afterRemove (unlinked ht k)) := by
  obtain ⟨h0, hi⟩ := w.index hh k
  have hb := (w.mem_bucket_iff hh k).1 hk
  have hu : chainRemove (bucketAt ht.buckets (ht.hashFunction k ht.capacity)) k
      = some ((bucketAt ht.buckets (ht.hashFunction k ht.capacity)).filter
          (fun n => decide (n.key ≠ k))) := by
    unfold bucketAt; rw [if_pos h0]
    exact chainRemove_some hb (w.bucket_nodup _)
  simp only [removeKey, hu, w.set_remove_eq hh k, afterRemove, unlinked]
  split <;> rfl

theorem WF.remove_absent {h : Int → Int → Int} {ht : HashTable} (w : WF h ht)
    (hh : InRange h) {k : Int} (hk : k ∉ keysOf (entries ht)) :
    removeKey ht k = (false, ht) := by
  obtain ⟨h0, hi⟩ := w.index hh k
  have hb : k ∉ keysOf (ht.buckets.getD (ht.hashFunction k ht.capacity).toNat []) :=
    fun hm => hk ((w.mem_bucket_iff hh k).2 hm)
  have hu : chainRemove (bucketAt ht.buckets (ht.hashFunction k ht.capacity)) k = none := by
    unfold bucketAt; rw [if_pos h0]
    exact chainRemove_none hb
  simp only [removeKey, hu]

theorem WF.of_unlinked {h : Int → Int → Int} {ht : HashTable} (w : WF h ht)
    {k : Int} (hk : k ∈ keysOf (entries ht)) : WF h (unlinked ht k) := by
  refine ⟨w.hash, w.cap, ?_, ?_, ?_, ?_⟩
  · simp only [unlinked, List.length_map]; exact w.len
  · intro i n hn
    simp only [unlinked] at hn ⊢
    rw [getD_map_bucket _ _ rfl] at hn
    exact w.place i n (List.mem_filter.1 hn).1
  · rw [entries_unlinked]
    exact List.Nodup.sublist ((List.filter_sublist _).map HashNode.key) w.nodup
  · rw [entries_unlinked]
    have := length_filter_ne hk w.nodup
    simp only [unlinked, w.size]
    omega

/-! ## The resize tests -/

theorem WF.rehash {h : Int → Int → Int} {ht : HashTable} (w : WF h ht) (hh : InRange h)
    {c : Int} (hc : 1 ≤ c) :
    WF h (rehash ht c) ∧ (entries (rehash ht c)).Perm (entries ht) ∧
      (rehash ht c).capacity = c := by
  obtain ⟨hf, hp⟩ := rehash_spec hh hc w.hash w.len
  exact ⟨WF_rehash hh hc w.hash w.len w.nodup, hp, hf.cap⟩

theorem tdiv_two_pos {c : Int} (hc : 10 < c) : 1 ≤ Int.tdiv c 2 := by
  rw [Int.tdiv_eq_ediv (by omega) (by omega)]; omega

theorem WF.shrink_stage {h : Int → Int → Int} {ht : HashTable} (w : WF h ht)
    (hh : InRange h) (below : Bool) :
    WF h (if 10 < ht.capacity ∧ below = true
        then HandsOn10.rehash ht (Int.tdiv ht.capacity 2) else ht) ∧
      (entries (if 10 < ht.capacity ∧ below = true
        then HandsOn10.rehash ht (Int.tdiv ht.capacity 2) else ht)).Perm (entries ht) := by
  split
  · next hc =>
    obtain ⟨w2, hp, _⟩ := w.rehash hh (tdiv_two_pos hc.1)
    exact ⟨w2, hp⟩
  · exact ⟨w, List.Perm.refl _⟩

theorem WF.grow_stage {h : Int → Int → Int} {ht : HashTable} (w : WF h ht)
    (hh : InRange h) (above : Bool) :
    WF h (if above = true then HandsOn10.rehash ht (ht.capacity * 2) else ht) ∧
      (entries (if above = true
        then HandsOn10.rehash ht (ht.capacity * 2) else ht)).Perm (entries ht) := by
  split
  · obtain ⟨w2, hp, _⟩ := w.rehash hh (c := ht.capacity * 2) (by have := w.cap; omega)
    exact ⟨w2, hp⟩
  · exact ⟨w, List.Perm.refl _⟩

theorem WF.of_afterRemove {h : Int → Int → Int} {ht : HashTable} (w : WF h ht)
    (hh : InRange h) :
    WF h (afterRemove ht) ∧ (entries (afterRemove ht)).Perm (entries ht) :=
  w.shrink_stage hh _

theorem WF.of_afterInsert {h : Int → Int → Int} {ht : HashTable} (w : WF h ht)
    (hh : InRange h) :
    WF h (afterInsert ht) ∧ (entries (afterInsert ht)).Perm (entries ht) := by
  obtain ⟨w2, hp2⟩ := w.grow_stage hh (loadFactorAbove ht.size ht.capacity)
  obtain ⟨w3, hp3⟩ := w2.shrink_stage hh (loadFactorBelow ht.size ht.capacity)
  exact ⟨w3, hp3.trans hp2⟩

/-! ## Capacity and size after a call -/

theorem foldl_rehashNode_capacity (l : List HashNode) (acc : HashTable) :
    (l.foldl rehashNode acc).capacity = acc.capacity := by
  induction l generalizing acc with
  | nil => rfl
  | cons n l ih => rw [List.foldl_cons, ih]; rfl

theorem foldl_buckets_capacity (bs : List (List HashNode)) (is : List Nat) (acc : HashTable) :
    (is.foldl (fun acc (i : Nat) => (bucketAt bs (i : Int)).foldl rehashNode acc) acc).capacity
      = acc.capacity := by
  induction is generalizing acc with
  | nil => rfl
  | cons i is ih => rw [List.foldl_cons, ih, foldl_rehashNode_capacity]

theorem rehash_capacity (ht : HashTable) (c : Int) : (rehash ht c).capacity = c := by
  simp only [rehash, foldl_buckets_capacity]

theorem afterRemove_capacity (ht : HashTable) :
    (afterRemove ht).capacity =
      if 10 < ht.capacity ∧ 4 * ht.size < ht.capacity then Int.tdiv ht.capacity 2
      else ht.capacity := by
  unfold afterRemove loadFactorBelow
  by_cases hc : 10 < ht.capacity ∧ 4 * ht.size < ht.capacity
  · rw [if_pos hc, if_pos (by simpa using hc), rehash_capacity]
  · rw [if_neg hc, if_neg (by simpa using hc)]

theorem afterInsert_capacity (ht : HashTable) :
    (afterInsert ht).capacity =
      if 3 * ht.capacity < 4 * ht.size then ht.capacity * 2
      else if 10 < ht.capacity ∧ 4 * ht.size < ht.capacity then Int.tdiv ht.capacity 2
      else ht.capacity := by
  unfold afterInsert loadFactorAbove loadFactorBelow
  simp only [decide_eq_true_eq]
  by_cases ha : 3 * ht.capacity < 4 * ht.size
  · have hb : ¬ (10 < (rehash ht (ht.capacity * 2)).capacity ∧ 4 * ht.size < ht.capacity) := by
      rw [rehash_capacity]; omega
    rw [if_pos ha, if_pos ha, if_neg hb, rehash_capacity]
  · rw [if_neg ha, if_neg ha]
    by_cases hc : 10 < ht.capacity ∧ 4 * ht.size < ht.capacity
    · rw [if_pos hc, if_pos hc, rehash_capacity]
    · rw [if_neg hc, if_neg hc]

theorem WF.size_of_perm {h : Int → Int → Int} {a b : HashTable} (wa : WF h a) (wb : WF h b)
    (hp : (entries a).Perm (entries b)) : a.size = b.size := by
  rw [wa.size, wb.size, hp.length_eq]

theorem WF.insert_new_shape {h : Int → Int → Int} {ht : HashTable} (w : WF h ht)
    (hh : InRange h) {k : Int} (hk : k ∉ keysOf (entries ht)) (v : Int) :
    (insert ht k v).size = ht.size + 1 ∧
      (insert ht k v).capacity =
        if 3 * ht.capacity < 4 * (ht.size + 1) then ht.capacity * 2
        else if 10 < ht.capacity ∧ 4 * (ht.size + 1) < ht.capacity then Int.tdiv ht.capacity 2
        else ht.capacity := by
  rw [(w.insert_new hh hk v).1]
  have w1 := w.of_linked hh hk v
  obtain ⟨w2, hp⟩ := w1.of_afterInsert hh
  exact ⟨w2.size_of_perm w1 hp, afterInsert_capacity _⟩

theorem WF.removeKey_shape {h : Int → Int → Int} {ht : HashTable} (w : WF h ht)
    (hh : InRange h) {k : Int} (hk : k ∈ keysOf (entries ht)) :
    (removeKey ht k).2.size = ht.size - 1 ∧
      (removeKey ht k).2.capacity =
        if 10 < ht.capacity ∧ 4 * (ht.size - 1) < ht.capacity then Int.tdiv ht.capacity 2
        else ht.capacity := by
  rw [w.remove_present hh hk]
  have w1 := w.of_unlinked hk
  obtain ⟨w2, hp⟩ := w1.of_afterRemove hh
  exact ⟨w2.size_of_perm w1 hp, afterRemove_capacity _⟩

/-! ## The invariant holds on every reachable table -/

theorem WF_create (h : Int → Int → Int) {c : Int} (hc : 1 ≤ c) : WF h (createHashTable c h) :=
  WF_of_filling hc (filling_empty h c) (by simp [entries, keysOf, createHashTable])

theorem WF.of_insert {h : Int → Int → Int} {ht : HashTable} (w : WF h ht) (hh : InRange h)
    (k v : Int) : WF h (insert ht k v) := by
  by_cases hk : k ∈ keysOf (entries ht)
  · rw [(w.insert_update hh hk v).1]; exact w.of_updated k v
  · rw [(w.insert_new hh hk v).1]; exact ((w.of_linked hh hk v).of_afterInsert hh).1

theorem WF.of_removeKey {h : Int → Int → Int} {ht : HashTable} (w : WF h ht) (hh : InRange h)
    (k : Int) : WF h (removeKey ht k).2 := by
  by_cases hk : k ∈ keysOf (entries ht)
  · rw [w.remove_present hh hk]; exact ((w.of_unlinked hk).of_afterRemove hh).1
  · rw [w.remove_absent hh hk]; exact w

theorem Reachable.wf {c : Int} {h : Int → Int → Int} (hc : 1 ≤ c) (hh : InRange h)
    {ht : HashTable} (r : Reachable c h ht) : WF h ht := by
  induction r with
  | create => exact WF_create h hc
  | insert ht k v _ ih => exact ih.of_insert hh k v
  | removeKey ht k _ ih => exact ih.of_removeKey hh k

theorem inRange_foldedHash : InRange foldedHash := by
  intro k c hc
  unfold foldedHash
  exact ⟨Int.emod_nonneg _ (by omega), Int.emod_lt_of_pos _ (by omega)⟩

/-! ## Contents after a call -/

theorem WF.entries_insert {h : Int → Int → Int} {ht : HashTable} (w : WF h ht)
    (hh : InRange h) (k v : Int) :
    (entries (insert ht k v)).Perm (entries (insertWithoutResize ht k v)) := by
  by_cases hk : k ∈ keysOf (entries ht)
  · rw [(w.insert_update hh hk v).1, (w.insert_update hh hk v).2]
  · rw [(w.insert_new hh hk v).1, (w.insert_new hh hk v).2]
    exact ((w.of_linked hh hk v).of_afterInsert hh).2

theorem WF.entries_removeKey {h : Int → Int → Int} {ht : HashTable} (w : WF h ht)
    (hh : InRange h) (k : Int) :
    (entries (removeKey ht k).2).Perm
      ((entries ht).filter (fun n => decide (n.key ≠ k))) := by
  by_cases hk : k ∈ keysOf (entries ht)
  · rw [w.remove_present hh hk, ← entries_unlinked]
    exact ((w.of_unlinked hk).of_afterRemove hh).2
  · rw [w.remove_absent hh hk, filter_ne_of_not_mem hk]

theorem WF.mem_entries_insert {h : Int → Int → Int} {ht : HashTable} (w : WF h ht)
    (hh : InRange h) (k v : Int) : (⟨k, v⟩ : HashNode) ∈ entries (insert ht k v) := by
  rw [(w.entries_insert hh k v).mem_iff]
  by_cases hk : k ∈ keysOf (entries ht)
  · rw [(w.insert_update hh hk v).2, entries_updated]
    obtain ⟨n, hn, e⟩ := List.mem_map.1 hk
    refine List.mem_map.2 ⟨n, hn, ?_⟩
    simp [overwrite, e]
  · rw [(w.insert_new hh hk v).2, (w.entries_linked hh k v).mem_iff]
    exact List.mem_cons_self _ _

/-! ## Load factor and capacity bounds -/

theorem WF.size_nonneg {h : Int → Int → Int} {ht : HashTable} (w : WF h ht) : 0 ≤ ht.size := by
  rw [w.size]; exact Int.ofNat_nonneg _

theorem WF.load_le_insert {h : Int → Int → Int} {ht : HashTable} (w : WF h ht)
    (hh : InRange h) (hl : 4 * ht.size ≤ 3 * ht.capacity) (k v : Int) :
    4 * (insert ht k v).size ≤ 3 * (insert ht k v).capacity := by
  by_cases hk : k ∈ keysOf (entries ht)
  · rw [(w.insert_update hh hk v).1]; exact hl
  · obtain ⟨hs, hcap⟩ := w.insert_new_shape hh hk v
    have h1 := w.cap
    have h0 := w.size_nonneg
    rw [hs, hcap]
    split_ifs with ha hb
    · omega
    · rw [Int.tdiv_eq_ediv (by omega) (by omega)]; omega
    · omega

theorem WF.load_le_removeKey {h : Int → Int → Int} {ht : HashTable} (w : WF h ht)
    (hh : InRange h) (hl : 4 * ht.size ≤ 3 * ht.capacity) (k : Int) :
    4 * (removeKey ht k).2.size ≤ 3 * (removeKey ht k).2.capacity := by
  by_cases hk : k ∈ keysOf (entries ht)
  · obtain ⟨hs, hcap⟩ := w.removeKey_shape hh hk
    have h1 := w.cap
    rw [hs, hcap]
    split_ifs with hb
    · rw [Int.tdiv_eq_ediv (by omega) (by omega)]; omega
    · omega
  · rw [w.remove_absent hh hk]; exact hl

theorem Reachable.load_le {c : Int} {h : Int → Int → Int} (hc : 1 ≤ c) (hh : InRange h)
    {ht : HashTable} (r : Reachable c h ht) : 4 * ht.size ≤ 3 * ht.capacity := by
  induction r with
  | create => simp only [createHashTable]; omega
  | insert ht k v r ih => exact (r.wf hc hh).load_le_insert hh ih k v
  | removeKey ht k r ih => exact (r.wf hc hh).load_le_removeKey hh ih k

theorem insert_capacity_cases (ht : HashTable) (k v : Int) :
    (insert ht k v).capacity = ht.capacity ∨ (insert ht k v).capacity = ht.capacity * 2 ∨
      (10 < ht.capacity ∧ (insert ht k v).capacity = Int.tdiv ht.capacity 2) := by
  unfold insert
  simp only
  split
  · exact Or.inl rfl
  · have e := afterInsert_capacity
      { ht with
        buckets := setBucket ht.buckets (ht.hashFunction k ht.capacity)
          (createNode k v :: bucketAt ht.buckets (ht.hashFunction k ht.capacity))
        size := ht.size + 1 }
    unfold afterInsert at e
    simp only at e
    rw [e]
    split_ifs with ha hb
    · exact Or.inr (Or.inl rfl)
    · exact Or.inr (Or.inr ⟨hb.1, rfl⟩)
    · exact Or.inl rfl

theorem removeKey_capacity_cases (ht : HashTable) (k : Int) :
    (removeKey ht k).2.capacity = ht.capacity ∨
      (10 < ht.capacity ∧ (removeKey ht k).2.capacity = Int.tdiv ht.capacity 2) := by
  unfold removeKey
  simp only
  split
  · exact Or.inl rfl
  · split
    · next hc => exact Or.inr ⟨hc.1, rehash_capacity _ _⟩
    · exact Or.inl rfl

theorem tdiv_ten_pow {j : Nat} (hc : (10 : Int) < 10 * 2 ^ j) :
    ∃ i : Nat, Int.tdiv (10 * 2 ^ j) 2 = 10 * 2 ^ i := by
  cases j with
  | zero => simp at hc
  | succ j =>
    refine ⟨j, ?_⟩
    have hp : (0 : Int) ≤ 10 * 2 ^ j := by positivity
    rw [Int.tdiv_eq_ediv (by positivity) (by omega), pow_succ]
    omega

/-- From an initial capacity of 10 every reachable capacity is `10 * 2 ^ j`. -/
theorem Reachable.capacity_pow {h : Int → Int → Int} {ht : HashTable}
    (r : Reachable 10 h ht) : ∃ j : Nat, ht.capacity = 10 * 2 ^ j := by
  induction r with
  | create => exact ⟨0, by simp [createHashTable]⟩
  | insert ht k v _ ih =>
    obtain ⟨j, hj⟩ := ih
    rcases insert_capacity_cases ht k v with e | e | ⟨hc, e⟩
    · exact ⟨j, by rw [e, hj]⟩
    · exact ⟨j + 1, by rw [e, hj, pow_succ]; ring⟩
    · rw [e, hj]; rw [hj] at hc; exact tdiv_ten_pow hc
  | removeKey ht k _ ih =>
    obtain ⟨j, hj⟩ := ih
    rcases removeKey_capacity_cases ht k with e | ⟨hc, e⟩
    · exact ⟨j, by rw [e, hj]⟩
    · rw [e, hj]; rw [hj] at hc; exact tdiv_ten_pow hc

theorem Reachable.ten_le_capacity {h : Int → Int → Int} {ht : HashTable}
    (r : Reachable 10 h ht) : 10 ≤ ht.capacity := by
  obtain ⟨j, hj⟩ := r.capacity_pow
  have : (1 : Int) ≤ 2 ^ j := one_le_pow₀ (by norm_num)
  omega

/-- From an initial capacity of 10, a reachable table is at capacity 10 or at least a
quarter full. -/
theorem Reachable.quarter_full {h : Int → Int → Int} (hh : InRange h) {ht : HashTable}
    (r : Reachable 10 h ht) : ht.capacity = 10 ∨ ht.capacity ≤ 4 * ht.size := by
  induction r with
  | create => exact Or.inl rfl
  | insert ht k v r ih =>
    have w := r.wf (by decide) hh
    by_cases hk : k ∈ keysOf (entries ht)
    · rw [(w.insert_update hh hk v).1]; exact ih
    · obtain ⟨hs, hcap⟩ := w.insert_new_shape hh hk v
      have h10 := r.ten_le_capacity
      rw [hs, hcap]
      split_ifs with ha hb
      · omega
      · omega
      · omega
  | removeKey ht k r ih =>
    have w := r.wf (by decide) hh
    by_cases hk : k ∈ keysOf (entries ht)
    · obtain ⟨hs, hcap⟩ := w.removeKey_shape hh hk
      have h10 := r.ten_le_capacity
      rw [hs, hcap]
      split_ifs with hb
      · rw [Int.tdiv_eq_ediv (by omega) (by omega)]; omega
      · omega
    · rw [w.remove_absent hh hk]; exact ih

/-! ## The contract -/

/-- C1 (round trip): on every table reachable from `createHashTable(c, h)` with `c ≥ 1` and an
in-range hash function, `insert(ht, k, v)` followed by `search(ht, k, &out)` returns true
with `out = v`, whichever path the insert took (update, new node, grow, shrink). -/
theorem insert_then_search (c : Int) (h : Int → Int → Int) (hc : 1 ≤ c) (hh : InRange h)
    (ht : HashTable) (r : Reachable c h ht) (k v : Int) :
    search (insert ht k v) k = some v := by
  have w := r.wf hc hh
  exact ((w.of_insert hh k v).search_eq_some_iff hh k v).2 (w.mem_entries_insert hh k v)

/-- Instance of C1 where the insert adds a second node to a one-node table. -/
theorem insert_then_search_witness :
    (1 : Int) ≤ 10 ∧ InRange foldedHash ∧
      Reachable 10 foldedHash (insert (createHashTable 10 foldedHash) 5 500) ∧
      search (insert (insert (createHashTable 10 foldedHash) 5 500) 15 1500) 15 = some 1500 :=
  ⟨by decide, inRange_foldedHash, Reachable.insert _ 5 500 Reachable.create,
    insert_then_search 10 foldedHash (by decide) inRange_foldedHash _
      (Reachable.insert _ 5 500 Reachable.create) 15 1500⟩

/-- C2 (removal of a present key): on every reachable table and for every key `k` stored in
it, `removeKey(ht, k)` returns true, a following `search(ht, k, _)` returns false, and `size`
is exactly one less than before, also when the removal shrinks the table and `size` is
recounted. -/
theorem removeKey_present (c : Int) (h : Int → Int → Int) (hc : 1 ≤ c) (hh : InRange h)
    (ht : HashTable) (r : Reachable c h ht) (k : Int) (hk : k ∈ keysOf (entries ht)) :
    (removeKey ht k).1 = true ∧ search (removeKey ht k).2 k = none ∧
      (removeKey ht k).2.size = ht.size - 1 := by
  have w := r.wf hc hh
  refine ⟨by rw [w.remove_present hh hk], ?_, (w.removeKey_shape hh hk).1⟩
  rw [(w.of_removeKey hh k).search_eq_none_iff hh k]
  intro hm
  have hp := (w.entries_removeKey hh k).map HashNode.key
  exact not_mem_keysOf_filter k _ (hp.mem_iff.1 hm)

/-- Instance of C2: key 5 is removed from the table holding exactly key 5. -/
theorem removeKey_present_witness :
    (5 : Int) ∈ keysOf (entries (insert (createHashTable 10 foldedHash) 5 500)) ∧
      (removeKey (insert (createHashTable 10 foldedHash) 5 500) 5).1 = true ∧
      search (removeKey (insert (createHashTable 10 foldedHash) 5 500) 5).2 5 = none ∧
      (removeKey (insert (createHashTable 10 foldedHash) 5 500) 5).2.size
        = (insert (createHashTable 10 foldedHash) 5 500).size - 1 :=
  ⟨by decide,
    removeKey_present 10 foldedHash (by decide) inRange_foldedHash _
      (Reachable.insert _ 5 500 Reachable.create) 5 (by decide)⟩

/-- C3 (removal of an absent key): on every reachable table and for every key `k` not stored
in it, `removeKey(ht, k)` returns false and leaves the whole table (size, capacity, every
bucket chain) as it was; no shrink is performed. -/
theorem removeKey_absent (c : Int) (h : Int → Int → Int) (hc : 1 ≤ c) (hh : InRange h)
    (ht : HashTable) (r : Reachable c h ht) (k : Int) (hk : k ∉ keysOf (entries ht)) :
    (removeKey ht k).1 = false ∧ (removeKey ht k).2 = ht := by
  rw [(r.wf hc hh).remove_absent hh hk]
  exact ⟨rfl, rfl⟩

/-- Instance of C3 on a table of capacity 100 holding no key, where the shrink condition
`capacity > 10 ∧ size / capacity < 0.25` is met. -/
theorem removeKey_absent_witness :
    (7 : Int) ∉ keysOf (entries (createHashTable 100 foldedHash)) ∧
      (removeKey (createHashTable 100 foldedHash) 7).1 = false ∧
      (removeKey (createHashTable 100 foldedHash) 7).2 = createHashTable 100 foldedHash :=
  ⟨by decide,
    removeKey_absent 100 foldedHash (by decide) inRange_foldedHash _ Reachable.create 7
      (by decide)⟩

/-- C4 (update path of insert): on every reachable table and for every key `k` stored in it,
`insert(ht, k, v)` gives the node of `k` the value `v` and changes nothing else: the result
is the same table with that one value overwritten, so size and capacity are unchanged (no
grow, no shrink) and every chain holds the same keys in the same order. -/
theorem insert_existing_key (c : Int) (h : Int → Int → Int) (hc : 1 ≤ c) (hh : InRange h)
    (ht : HashTable) (r : Reachable c h ht) (k v : Int) (hk : k ∈ keysOf (entries ht)) :
    insert ht k v = { ht with buckets := ht.buckets.map (List.map (overwrite k v)) } ∧
      (insert ht k v).size = ht.size ∧ (insert ht k v).capacity = ht.capacity ∧
      (insert ht k v).buckets.map keysOf = ht.buckets.map keysOf := by
  rw [((r.wf hc hh).insert_update hh hk v).1]
  refine ⟨rfl, rfl, rfl, ?_⟩
  simp only [updated, List.map_map]
  apply List.map_congr_left
  intro l _
  exact keysOf_map_overwrite k v l

/-- Instance of C4: the value of key 5 is overwritten in a one-node table. -/
theorem insert_existing_key_witness :
    (5 : Int) ∈ keysOf (entries (insert (createHashTable 10 foldedHash) 5 500)) ∧
      (insert (insert (createHashTable 10 foldedHash) 5 500) 5 7).size
        = (insert (createHashTable 10 foldedHash) 5 500).size :=
  ⟨by decide,
    (insert_existing_key 10 foldedHash (by decide) inRange_foldedHash _
      (Reachable.insert _ 5 500 Reachable.create) 5 7 (by decide)).2.1⟩

/-- C5 (key uniqueness): in every table reachable from `createHashTable(c, h)` (`c ≥ 1`,
in-range hash function) by `insert` and `removeKey` calls, the bucket array has `capacity`
slots and no two nodes of the whole table carry the same key. -/
theorem keys_unique (c : Int) (h : Int → Int → Int) (hc : 1 ≤ c) (hh : InRange h)
    (ht : HashTable) (r : Reachable c h ht) :
    ht.buckets.length = ht.capacity.toNat ∧ (keysOf (entries ht)).Nodup :=
  ⟨(r.wf hc hh).len, (r.wf hc hh).nodup⟩

/-- Instance of C5 after inserting key 5 twice. -/
theorem keys_unique_witness :
    (insert (insert (createHashTable 10 foldedHash) 5 500) 5 7).buckets.length
        = (insert (insert (createHashTable 10 foldedHash) 5 500) 5 7).capacity.toNat ∧
      (keysOf (entries (insert (insert (createHashTable 10 foldedHash) 5 500) 5 7))).Nodup :=
  keys_unique 10 foldedHash (by decide) inRange_foldedHash _
    (Reachable.insert _ 5 7 (Reachable.insert _ 5 500 Reachable.create))

/-- C6 (size invariant): in every reachable table `size` is the number of nodes over all
chains; an `insert` of a new key leaves `size` one higher and a `removeKey` of a stored key
one lower, whether or not the call recounted the nodes in a grow or shrink rehash. -/
theorem size_eq_node_count (c : Int) (h : Int → Int → Int) (hc : 1 ≤ c) (hh : InRange h)
    (ht : HashTable) (r : Reachable c h ht) :
    ht.size = ((entries ht).length : Int) ∧
      (∀ k v : Int, (insert ht k v).size
        = if k ∈ keysOf (entries ht) then ht.size else ht.size + 1) ∧
      (∀ k : Int, (removeKey ht k).2.size
        = if k ∈ keysOf (entries ht) then ht.size - 1 else ht.size) := by
  have w := r.wf hc hh
  refine ⟨w.size, ?_, ?_⟩
  · intro k v
    by_cases hk : k ∈ keysOf (entries ht)
    · rw [if_pos hk, (w.insert_update hh hk v).1]; rfl
    · rw [if_neg hk]; exact (w.insert_new_shape hh hk v).1
  · intro k
    by_cases hk : k ∈ keysOf (entries ht)
    · rw [if_pos hk]; exact (w.removeKey_shape hh hk).1
    · rw [if_neg hk, w.remove_absent hh hk]

/-- Instance of C6 on the table holding exactly key 5. -/
theorem size_eq_node_count_witness :
    (insert (createHashTable 10 foldedHash) 5 500).size
      = ((entries (insert (createHashTable 10 foldedHash) 5 500)).length : Int) :=
  (size_eq_node_count 10 foldedHash (by decide) inRange_foldedHash _
    (Reachable.insert _ 5 500 Reachable.create)).1

/-- C7 (rehash preserves membership): on every reachable table, the nodes stored after
`insert(ht, k, v)` are, up to order, exactly the nodes stored after
`insertWithoutResize(ht, k, v)`, and the nodes stored after `removeKey(ht, k)` are, up to
order, exactly the previous nodes without the one carrying `k`; a grow or shrink loses,
duplicates or alters no node. -/
theorem resize_preserves_entries (c : Int) (h : Int → Int → Int) (hc : 1 ≤ c)
    (hh : InRange h) (ht : HashTable) (r : Reachable c h ht) (k v : Int) :
    (entries (insert ht k v)).Perm (entries (insertWithoutResize ht k v)) ∧
      (entries (removeKey ht k).2).Perm
        ((entries ht).filter (fun n => decide (n.key ≠ k))) :=
  ⟨(r.wf hc hh).entries_insert hh k v, (r.wf hc hh).entries_removeKey hh k⟩

/-- Instance of C7 where the insert shrinks a table of capacity 100 to capacity 50. -/
theorem resize_preserves_entries_witness :
    (insert (createHashTable 100 foldedHash) 5 500).capacity = 50 ∧
      (entries (insert (createHashTable 100 foldedHash) 5 500)).Perm
        (entries (insertWithoutResize (createHashTable 100 foldedHash) 5 500)) :=
  ⟨by decide,
    (resize_preserves_entries 100 foldedHash (by decide) inRange_foldedHash _
      Reachable.create 5 500).1⟩

/-- C8 (load factor after insert): on every table reachable from `createHashTable(c, h)` with
any `c ≥ 1` and an in-range hash function, after every `insert` call
`size / capacity ≤ 0.75`, that is `4 * size ≤ 3 * capacity`; a single doubling is enough. -/
theorem load_factor_after_insert (c : Int) (h : Int → Int → Int) (hc : 1 ≤ c)
    (hh : InRange h) (ht : HashTable) (r : Reachable c h ht) (k v : Int) :
    4 * (insert ht k v).size ≤ 3 * (insert ht k v).capacity :=
  (r.wf hc hh).load_le_insert hh (r.load_le hc hh) k v

/-- Instance of C8 on the first insert into a table of capacity 1, which doubles it. -/
theorem load_factor_after_insert_witness :
    (insert (createHashTable 1 foldedHash) 5 500).capacity = 2 ∧
      4 * (insert (createHashTable 1 foldedHash) 5 500).size
        ≤ 3 * (insert (createHashTable 1 foldedHash) 5 500).capacity :=
  ⟨by decide,
    load_factor_after_insert 1 foldedHash (by decide) inRange_foldedHash _
      Reachable.create 5 500⟩

/-- C9 as amended (load factor after removal): on every table reachable from
`createHashTable(10, h)` with an in-range hash function, after every `removeKey` call that
removed a key, `capacity == 10` or `size / capacity ≥ 0.25` (`capacity ≤ 4 * size`). -/
theorem load_factor_after_removeKey (h : Int → Int → Int) (hh : InRange h)
    (ht : HashTable) (r : Reachable 10 h ht) (k : Int) (_hrem : (removeKey ht k).1 = true) :
    (removeKey ht k).2.capacity = 10 ∨
      (removeKey ht k).2.capacity ≤ 4 * (removeKey ht k).2.size :=
  (Reachable.removeKey ht k r).quarter_full hh

/-- Instance of the amended C9: removing key 5 from the table holding exactly key 5. -/
theorem load_factor_after_removeKey_witness :
    (removeKey (insert (createHashTable 10 foldedHash) 5 500) 5).1 = true ∧
      ((removeKey (insert (createHashTable 10 foldedHash) 5 500) 5).2.capacity = 10 ∨
        (removeKey (insert (createHashTable 10 foldedHash) 5 500) 5).2.capacity
          ≤ 4 * (removeKey (insert (createHashTable 10 foldedHash) 5 500) 5).2.size) :=
  ⟨by decide,
    load_factor_after_removeKey foldedHash inRange_foldedHash _
      (Reachable.insert _ 5 500 Reachable.create) 5 (by decide)⟩

/-- C9 as stated fails for an initial capacity of 5: after `insert(1, 100)` and
`removeKey(1)` on `createHashTable(5, h)` the removal returned true, the capacity is 5 (no
shrink, since `capacity > 10` is false) and the size is 0, so neither `capacity == 10` nor
`size / capacity ≥ 0.25` holds. -/
theorem load_factor_after_removeKey_counterexample :
    (1 : Int) ≤ 5 ∧ InRange foldedHash ∧
      Reachable 5 foldedHash (insert (createHashTable 5 foldedHash) 1 100) ∧
      (removeKey (insert (createHashTable 5 foldedHash) 1 100) 1).1 = true ∧
      (removeKey (insert (createHashTable 5 foldedHash) 1 100) 1).2.capacity = 5 ∧
      (removeKey (insert (createHashTable 5 foldedHash) 1 100) 1).2.size = 0 ∧
      ¬ ((removeKey (insert (createHashTable 5 foldedHash) 1 100) 1).2.capacity = 10 ∨
        (removeKey (insert (createHashTable 5 foldedHash) 1 100) 1).2.capacity
          ≤ 4 * (removeKey (insert (createHashTable 5 foldedHash) 1 100) 1).2.size) :=
  ⟨by decide, inRange_foldedHash, Reachable.insert _ 1 100 Reachable.create,
    by decide, by decide, by decide, by decide⟩

/-- C10 as amended (capacity floor): on every table whose capacity is 10 or at least 20, no
`insert` and no `removeKey` call leaves the capacity below 10. -/
theorem capacity_floor (ht : HashTable) (hcap : ht.capacity = 10 ∨ 20 ≤ ht.capacity)
    (k v : Int) :
    10 ≤ (insert ht k v).capacity ∧ 10 ≤ (removeKey ht k).2.capacity := by
  constructor
  · rcases insert_capacity_cases ht k v with e | e | ⟨hc, e⟩
    · omega
    · omega
    · rw [Int.tdiv_eq_ediv (by omega) (by omega)] at e; omega
  · rcases removeKey_capacity_cases ht k with e | ⟨hc, e⟩
    · omega
    · rw [Int.tdiv_eq_ediv (by omega) (by omega)] at e; omega

/-- Instance of the amended C10 on an empty table of capacity 20, which the insert shrinks
to capacity 10. -/
theorem capacity_floor_witness :
    (insert (createHashTable 20 foldedHash) 1 100).capacity = 10 ∧
      10 ≤ (insert (createHashTable 20 foldedHash) 1 100).capacity ∧
      10 ≤ (removeKey (createHashTable 20 foldedHash) 1).2.capacity :=
  ⟨by decide, capacity_floor (createHashTable 20 foldedHash) (Or.inr (by decide)) 1 100⟩

/-- C10 as stated fails for a capacity of 11: `insert(1, 100)` on `createHashTable(11, h)`
finds `capacity > 10` and `size / capacity = 1/11 < 0.25`, and shrinks to `11 / 2 = 5`. -/
theorem capacity_floor_counterexample :
    (10 : Int) ≤ (createHashTable 11 foldedHash).capacity ∧ InRange foldedHash ∧
      Reachable 11 foldedHash (createHashTable 11 foldedHash) ∧
      (insert (createHashTable 11 foldedHash) 1 100).capacity = 5 ∧
      ¬ (10 ≤ (insert (createHashTable 11 foldedHash) 1 100).capacity) :=
  ⟨by decide, inRange_foldedHash, Reachable.create, by decide, by decide⟩

/-! ## The hash strategies -/

theorem xor_shift_nonneg (x : Int) : 0 ≤ Int.xor (x >>> 16) x := by
  cases x with
  | ofNat m => exact Int.ofNat_nonneg _
  | negSucc m => exact Int.ofNat_nonneg _

/-- C11 at the failing input: `simpleHash(-1, 10)` is `-1`, which is not an index of a
10-slot bucket array. -/
theorem simpleHash_negative_key :
    simpleHash (-1) 10 = -1 ∧ ¬ (0 ≤ simpleHash (-1) 10 ∧ simpleHash (-1) 10 < 10) := by
  decide

/-- C12 (improved hash range): for every key and every capacity `≥ 1`, `improvedHash(key,
capacity)` is an index in `[0, capacity)`: the last mixing step `(key >> 16) ^ key` clears
the sign bit, so the truncating remainder is taken of a non-negative value. -/
theorem improvedHash_in_range (key capacity : Int) (hc : 1 ≤ capacity) :
    0 ≤ improvedHash key capacity ∧ improvedHash key capacity < capacity := by
  unfold improvedHash
  exact ⟨Int.tmod_nonneg _ (xor_shift_nonneg _), Int.tmod_lt_of_pos _ (by omega)⟩

/-- Instance of C12 at key 99, the last key `main` inserts, and at the negative key `-5`. -/
theorem improvedHash_in_range_witness :
    (0 ≤ improvedHash 99 10 ∧ improvedHash 99 10 < 10) ∧ improvedHash (-5) 10 = 7 :=
  ⟨improvedHash_in_range 99 10 (by decide), by decide⟩

/-! ## The scenarios of `main` -/

theorem scanl_range_getElem {β : Type} (f : β → Nat → β) (b : β) (n : Nat) :
    ∀ (i : Nat) (h : i < ((List.range n).scanl f b).length),
      ((List.range n).scanl f b)[i] = (List.range i).foldl f b := by
  intro i
  induction i with
  | zero => intro h; simp [List.getElem_scanl_zero]
  | succ i ih =>
    intro h
    have hi : i < n := by simpa [List.length_scanl] using h
    rw [List.getElem_succ_scanl, ih (by omega), List.range_succ, List.foldl_append]
    simp [List.getElem_range]

theorem scanl_range_eq_map {β : Type} (f : β → Nat → β) (b : β) (n : Nat) :
    (List.range n).scanl f b
      = (List.range (n + 1)).map (fun i => (List.range i).foldl f b) := by
  apply List.ext_getElem
  · simp [List.length_scanl]
  · intro i h1 h2
    rw [scanl_range_getElem, List.getElem_map, List.getElem_range]

/-- The trace of the insert loop lists the tables `insertKeys ht 0 .. insertKeys ht n`. -/
theorem insertKeysTrace_eq (ht : HashTable) (n : Nat) :
    insertKeysTrace ht n = (List.range (n + 1)).map (insertKeys ht) :=
  scanl_range_eq_map _ ht n

/-- C13 (collision scenario): on `createHashTable(10, simpleHash)`, after `insert(5, 500)`,
`insert(15, 1500)`, `insert(25, 2500)` the capacity is 10, bucket 5 holds the chain of
exactly these three keys (25, 15, 5 from the head) and every other bucket is empty;
`search(15)` gives 1500; `removeKey(15)` returns true and leaves bucket 5 with the two nodes
25 and 5; `search(15)` then returns false. -/
theorem collision_scenario :
    (insert (insert (insert (createHashTable 10 simpleHash) 5 500) 15 1500) 25 2500).capacity
        = 10 ∧
      (insert (insert (insert (createHashTable 10 simpleHash) 5 500) 15 1500) 25 2500).buckets
        = [[], [], [], [], [], [⟨25, 2500⟩, ⟨15, 1500⟩, ⟨5, 500⟩], [], [], [], []] ∧
      search (insert (insert (insert (createHashTable 10 simpleHash) 5 500) 15 1500) 25 2500)
        15 = some 1500 ∧
      (removeKey (insert (insert (insert (createHashTable 10 simpleHash) 5 500) 15 1500)
        25 2500) 15).1 = true ∧
      (removeKey (insert (insert (insert (createHashTable 10 simpleHash) 5 500) 15 1500)
        25 2500) 15).2.buckets
        = [[], [], [], [], [], [⟨25, 2500⟩, ⟨5, 500⟩], [], [], [], []] ∧
      search (removeKey (insert (insert (insert (createHashTable 10 simpleHash) 5 500)
        15 1500) 25 2500) 15).2 15 = none := by
  decide

set_option maxRecDepth 1000000 in
/-- Capacity and size before the loop of 100 inserts and after each of its iterations. -/
theorem insertKeysTrace_shape :
    (insertKeysTrace (createHashTable 10 simpleHash) 100).map
        (fun t => (t.capacity, t.size))
      = (List.range 101).map (fun (n : Nat) =>
          ((if n < 8 then 10 else if n < 16 then 20 else if n < 31 then 40
            else if n < 61 then 80 else 160 : Int), (n : Int))) := by
  decide

set_option maxRecDepth 1000000 in
/-- Returned flag, capacity and size before the loop of 80 removals (flag `true`) and after
each of its iterations. -/
theorem removeKeysTrace_shape :
    (removeKeysTrace (insertKeys (createHashTable 10 simpleHash) 100) 80).map
        (fun p => (p.1, p.2.capacity, p.2.size))
      = (List.range 81).map (fun (n : Nat) =>
          (true, (if n < 61 then 160 else 80 : Int), (100 : Int) - (n : Int))) := by
  decide

/-- Capacity and size after the first `n` of the 100 inserts. -/
theorem insertKeys_shape (n : Nat) (hn : n ≤ 100) :
    (insertKeys (createHashTable 10 simpleHash) n).capacity
        = (if n < 8 then 10 else if n < 16 then 20 else if n < 31 then 40
            else if n < 61 then 80 else 160 : Int) ∧
      (insertKeys (createHashTable 10 simpleHash) n).size = (n : Int) := by
  have h := insertKeysTrace_shape
  rw [insertKeysTrace_eq, List.map_map, List.map_inj_left] at h
  have hn2 := h n (List.mem_range.2 (by omega))
  simp only [Function.comp_apply, Prod.mk.injEq] at hn2
  exact hn2

theorem removeKeys_succ (ht : HashTable) (n : Nat) :
    removeKeys ht (n + 1) = (removeKey (removeKeys ht n) (n : Int)).2 := by
  simp only [removeKeys, List.range_succ, List.foldl_append, List.foldl_cons, List.foldl_nil]

theorem foldl_removeKey_pair (ht : HashTable) (n : Nat) :
    ((List.range n).foldl (fun (p : Bool × HashTable) (i : Nat) => removeKey p.2 (i : Int))
      (true, ht)).2 = removeKeys ht n := by
  induction n with
  | zero => rfl
  | succ n ih =>
    rw [removeKeys_succ, ← ih]
    simp only [List.range_succ, List.foldl_append, List.foldl_cons, List.foldl_nil]

/-- Entry `n + 1` of the trace of the removal loop is the result of its call number `n`. -/
theorem removeKeysTrace_eq (ht : HashTable) (n : Nat) :
    removeKeysTrace ht n = (List.range (n + 1)).map (fun i =>
      (List.range i).foldl (fun (p : Bool × HashTable) (i : Nat) => removeKey p.2 (i : Int))
        (true, ht)) :=
  scanl_range_eq_map _ (true, ht) n

/-- Capacity and size after the first `n` of the 80 removals. -/
theorem removeKeys_shape (n : Nat) (hn : n ≤ 80) :
    (removeKeys (insertKeys (createHashTable 10 simpleHash) 100) n).capacity
        = (if n < 61 then 160 else 80 : Int) ∧
      (removeKeys (insertKeys (createHashTable 10 simpleHash) 100) n).size
        = (100 : Int) - (n : Int) := by
  have h := removeKeysTrace_shape
  rw [removeKeysTrace_eq, List.map_map, List.map_inj_left] at h
  have hn2 := h n (List.mem_range.2 (by omega))
  simp only [Function.comp_apply, Prod.mk.injEq, foldl_removeKey_pair] at hn2
  exact hn2.2

/-- Flag returned by call number `n` of the 80 removals. -/
theorem removeKeys_flag (n : Nat) (hn : n < 80) :
    (removeKey (removeKeys (insertKeys (createHashTable 10 simpleHash) 100) n) (n : Int)).1
      = true := by
  have h := removeKeysTrace_shape
  rw [removeKeysTrace_eq, List.map_map, List.map_inj_left] at h
  have hn2 := h (n + 1) (List.mem_range.2 (by omega))
  simp only [Function.comp_apply, Prod.mk.injEq] at hn2
  have e : (List.range (n + 1)).foldl
      (fun (p : Bool × HashTable) (i : Nat) => removeKey p.2 (i : Int))
      (true, insertKeys (createHashTable 10 simpleHash) 100)
      = removeKey (removeKeys (insertKeys (createHashTable 10 simpleHash) 100) n) (n : Int) := by
    rw [← foldl_removeKey_pair]
    simp only [List.range_succ, List.foldl_append, List.foldl_cons, List.foldl_nil]
  rw [e] at hn2
  exact hn2.1

set_option maxRecDepth 1000000 in
/-- After the 80 removals the keys 80..99 are still mapped to their values. -/
theorem removeKeys_search :
    ∀ k ∈ List.range' 80 20,
      search (removeKeys (insertKeys (createHashTable 10 simpleHash) 100) 80) (k : Int)
        = some ((k : Int) * 100) := by
  decide

/-- C14 (growth scenario): on `createHashTable(10, simpleHash)`, inserting the keys 0..99 in
order (key `i` with value `i * 100`) keeps capacity 10 through the first seven inserts and
grows for the first time when `size` reaches 8 (capacity 20); every insert of the run
leaves the capacity as it was or doubles it (none shrinks it); after the 100 inserts `size`
is 100 and `capacity` is `160 = 10 * 2 ^ 4 ≥ 134`. -/
theorem growth_scenario :
    (∀ n : Nat, n < 8 → (insertKeys (createHashTable 10 simpleHash) n).capacity = 10) ∧
      (insertKeys (createHashTable 10 simpleHash) 8).size = 8 ∧
      (insertKeys (createHashTable 10 simpleHash) 8).capacity = 20 ∧
      (∀ n : Nat, n < 100 →
        (insertKeys (createHashTable 10 simpleHash) (n + 1)).capacity
            = (insertKeys (createHashTable 10 simpleHash) n).capacity ∨
          (insertKeys (createHashTable 10 simpleHash) (n + 1)).capacity
            = (insertKeys (createHashTable 10 simpleHash) n).capacity * 2) ∧
      (insertKeys (createHashTable 10 simpleHash) 100).size = 100 ∧
      (insertKeys (createHashTable 10 simpleHash) 100).capacity = 160 ∧
      (160 : Int) = 10 * 2 ^ 4 ∧ (134 : Int) ≤ 160 := by
  refine ⟨?_, ?_, ?_, ?_, ?_, ?_, by norm_num, by norm_num⟩
  · intro n hn
    rw [(insertKeys_shape n (by omega)).1, if_pos hn]
  · exact (insertKeys_shape 8 (by omega)).2
  · rw [(insertKeys_shape 8 (by omega)).1]; rfl
  · intro n hn
    rw [(insertKeys_shape (n + 1) (by omega)).1, (insertKeys_shape n (by omega)).1]
    split_ifs <;> omega
  · exact (insertKeys_shape 100 (by omega)).2
  · rw [(insertKeys_shape 100 (by omega)).1]; rfl

/-- C15 (shrink scenario): from the table obtained by inserting the keys 0..99 into
`createHashTable(10, simpleHash)`, the calls `removeKey(i)` for `i = 0..79` all return true;
each call halves the capacity exactly when it leaves `size / capacity < 0.25`, which
happens first at the call that brings `size` to 39 (capacity 160 to 80); the capacity after
the 80 removals is smaller than before them and never below 10; the run ends with `size`
20 and the keys 80..99 still mapped to their values. -/
theorem shrink_scenario :
    (∀ n : Nat, n < 80 →
        (removeKey (removeKeys (insertKeys (createHashTable 10 simpleHash) 100) n)
          (n : Int)).1 = true) ∧
      (∀ n : Nat, n < 80 →
        (removeKeys (insertKeys (createHashTable 10 simpleHash) 100) (n + 1)).capacity
          = if 4 * (removeKeys (insertKeys (createHashTable 10 simpleHash) 100) (n + 1)).size
                < (removeKeys (insertKeys (createHashTable 10 simpleHash) 100) n).capacity
            then (removeKeys (insertKeys (createHashTable 10 simpleHash) 100) n).capacity / 2
            else (removeKeys (insertKeys (createHashTable 10 simpleHash) 100) n).capacity) ∧
      (removeKeys (insertKeys (createHashTable 10 simpleHash) 100) 60).capacity = 160 ∧
      (removeKeys (insertKeys (createHashTable 10 simpleHash) 100) 61).capacity = 80 ∧
      (removeKeys (insertKeys (createHashTable 10 simpleHash) 100) 61).size = 39 ∧
      (removeKeys (insertKeys (createHashTable 10 simpleHash) 100) 80).capacity
        < (insertKeys (createHashTable 10 simpleHash) 100).capacity ∧
      (∀ n : Nat, n ≤ 80 →
        10 ≤ (removeKeys (insertKeys (createHashTable 10 simpleHash) 100) n).capacity) ∧
      (removeKeys (insertKeys (createHashTable 10 simpleHash) 100) 80).size = 20 ∧
      (∀ k : Nat, 80 ≤ k → k < 100 →
        search (removeKeys (insertKeys (createHashTable 10 simpleHash) 100) 80) (k : Int)
          = some ((k : Int) * 100)) := by
  refine ⟨removeKeys_flag, ?_, ?_, ?_, ?_, ?_, ?_, ?_, ?_⟩
  · intro n hn
    rw [(removeKeys_shape (n + 1) (by omega)).1, (removeKeys_shape (n + 1) (by omega)).2,
      (removeKeys_shape n (by omega)).1]
    push_cast
    split_ifs <;> omega
  · rw [(removeKeys_shape 60 (by omega)).1]; rfl
  · rw [(removeKeys_shape 61 (by omega)).1]; rfl
  · rw [(removeKeys_shape 61 (by omega)).2]; rfl
  · rw [(removeKeys_shape 80 (by omega)).1, (insertKeys_shape 100 (by omega)).1]; decide
  · intro n hn
    rw [(removeKeys_shape n hn).1]
    split_ifs <;> omega
  · rw [(removeKeys_shape 80 (by omega)).2]; rfl
  · intro k h1 h2
    exact removeKeys_search k (List.mem_range'_1.2 ⟨h1, by omega⟩)

/-! ## Resize policy, placement and frame properties -/

theorem afterInsert_eq (ht : HashTable) :
    afterInsert ht =
      if 3 * ht.capacity < 4 * ht.size then rehash ht (ht.capacity * 2)
      else if 10 < ht.capacity ∧ 4 * ht.size < ht.capacity
        then rehash ht (Int.tdiv ht.capacity 2)
      else ht := by
  unfold afterInsert loadFactorAbove loadFactorBelow
  simp only [decide_eq_true_eq]
  by_cases ha : 3 * ht.capacity < 4 * ht.size
  · have hb : ¬ (10 < (rehash ht (ht.capacity * 2)).capacity ∧ 4 * ht.size < ht.capacity) := by
      rw [rehash_capacity]; omega
    rw [if_pos ha, if_pos ha, if_neg hb]
  · rw [if_neg ha, if_neg ha]

theorem WF.insert_new_eq {h : Int → Int → Int} {ht : HashTable} (w : WF h ht)
    (hh : InRange h) {k : Int} (hk : k ∉ keysOf (entries ht)) (v : Int) :
    insert ht k v =
      if 3 * ht.capacity < 4 * (ht.size + 1)
        then HandsOn10.rehash (insertWithoutResize ht k v) (ht.capacity * 2)
      else if 10 < ht.capacity ∧ 4 * (ht.size + 1) < ht.capacity
        then HandsOn10.rehash (insertWithoutResize ht k v) (Int.tdiv ht.capacity 2)
      else insertWithoutResize ht k v := by
  rw [(w.insert_new hh hk v).1, (w.insert_new hh hk v).2, afterInsert_eq]
  rfl

theorem WF.search_congr {h : Int → Int → Int} {a b : HashTable} (wa : WF h a) (wb : WF h b)
    (hh : InRange h) (k : Int)
    (hm : ∀ v : Int, (⟨k, v⟩ : HashNode) ∈ entries a ↔ (⟨k, v⟩ : HashNode) ∈ entries b) :
    search a k = search b k := by
  apply Option.ext
  intro v
  rw [Option.mem_def, Option.mem_def, wa.search_eq_some_iff hh, wb.search_eq_some_iff hh]
  exact hm v

theorem WF.search_insert_other {h : Int → Int → Int} {ht : HashTable} (w : WF h ht)
    (hh : InRange h) {k k2 : Int} (hne : k ≠ k2) (v : Int) :
    search (insert ht k v) k2 = search ht k2 := by
  apply (w.of_insert hh k v).search_congr w hh
  intro v2
  rw [(w.entries_insert hh k v).mem_iff]
  by_cases hk : k ∈ keysOf (entries ht)
  · rw [(w.insert_update hh hk v).2, entries_updated, List.mem_map]
    constructor
    · rintro ⟨n, hn, e⟩
      have hkey : n.key = k2 := by
        have := congrArg HashNode.key e
        rwa [overwrite_key] at this
      have : overwrite k v n = n := by
        unfold overwrite
        rw [if_neg (fun e2 => hne (e2.symm.trans hkey))]
      rw [← e, this]; exact hn
    · intro hn
      refine ⟨_, hn, ?_⟩
      unfold overwrite
      rw [if_neg (fun e2 => hne e2.symm)]
  · rw [(w.insert_new hh hk v).2, (w.entries_linked hh k v).mem_iff, List.mem_cons]
    constructor
    · rintro (e | hn)
      · exact absurd (congrArg HashNode.key e).symm hne
      · exact hn
    · exact Or.inr

theorem WF.search_removeKey_other {h : Int → Int → Int} {ht : HashTable} (w : WF h ht)
    (hh : InRange h) {k k2 : Int} (hne : k ≠ k2) :
    search (removeKey ht k).2 k2 = search ht k2 := by
  apply (w.of_removeKey hh k).search_congr w hh
  intro v2
  rw [(w.entries_removeKey hh k).mem_iff, List.mem_filter]
  constructor
  · exact fun hm => hm.1
  · intro hm
    refine ⟨hm, ?_⟩
    simp only [ne_eq, decide_eq_true_eq]
    exact fun e => hne e.symm

/-- C16 (resize policy of insert): on every reachable table with capacity `c` and size `s`
and for every key `k` not stored in it, `insert(ht, k, v)` is `insertWithoutResize(ht, k, v)`
followed by one rehash to capacity `2 * c` if `(s + 1) / c > 0.75`, otherwise by one rehash to
capacity `c / 2` if `c > 10` and `(s + 1) / c < 0.25`, otherwise by nothing; the capacity
after the call is accordingly `2 * c`, `c / 2` or `c`.  A grow is never followed by a
shrink in the same call. -/
theorem insert_resize_policy (c : Int) (h : Int → Int → Int) (hc : 1 ≤ c) (hh : InRange h)
    (ht : HashTable) (r : Reachable c h ht) (k v : Int) (hk : k ∉ keysOf (entries ht)) :
    (insert ht k v).capacity =
        (if 3 * ht.capacity < 4 * (ht.size + 1) then 2 * ht.capacity
         else if 10 < ht.capacity ∧ 4 * (ht.size + 1) < ht.capacity then ht.capacity / 2
         else ht.capacity) ∧
      insert ht k v =
        (if 3 * ht.capacity < 4 * (ht.size + 1)
          then rehash (insertWithoutResize ht k v) (2 * ht.capacity)
         else if 10 < ht.capacity ∧ 4 * (ht.size + 1) < ht.capacity
          then rehash (insertWithoutResize ht k v) (ht.capacity / 2)
         else insertWithoutResize ht k v) := by
  have w := r.wf hc hh
  constructor
  · rw [(w.insert_new_shape hh hk v).2]
    split_ifs with ha hb
    · ring
    · exact Int.tdiv_eq_ediv (by omega) (by omega)
    · rfl
  · rw [w.insert_new_eq hh hk v]
    split_ifs with ha hb
    · rw [mul_comm]
    · rw [Int.tdiv_eq_ediv (by omega) (by omega)]
    · rfl

/-- Instance of C16: the eighth insert into a table of capacity 10 doubles it. -/
theorem insert_resize_policy_witness :
    (7 : Int) ∉ keysOf (entries (insertKeys (createHashTable 10 foldedHash) 7)) ∧
      (insert (insertKeys (createHashTable 10 foldedHash) 7) 7 700).capacity = 20 := by
  have hr : Reachable 10 foldedHash (insertKeys (createHashTable 10 foldedHash) 7) :=
    Reachable.insert _ 6 600 (Reachable.insert _ 5 500 (Reachable.insert _ 4 400
      (Reachable.insert _ 3 300 (Reachable.insert _ 2 200 (Reachable.insert _ 1 100
        (Reachable.insert _ 0 0 Reachable.create))))))
  have hk : (7 : Int) ∉ keysOf (entries (insertKeys (createHashTable 10 foldedHash) 7)) := by
    decide
  refine ⟨hk, ?_⟩
  rw [(insert_resize_policy 10 foldedHash (by decide) inRange_foldedHash _ hr 7 700 hk).1]
  decide

/-- C17 (bucket placement): in every reachable table every node found in bucket `i`
satisfies `hashFunction(node.key, capacity) == i` for the current capacity, and `search`
finds every stored node. -/
theorem bucket_placement (c : Int) (h : Int → Int → Int) (hc : 1 ≤ c) (hh : InRange h)
    (ht : HashTable) (r : Reachable c h ht) :
    (∀ (i : Int) (n : HashNode), n ∈ bucketAt ht.buckets i →
        ht.hashFunction n.key ht.capacity = i) ∧
      (∀ n : HashNode, n ∈ entries ht → search ht n.key = some n.value) := by
  have w := r.wf hc hh
  constructor
  · intro i n hn
    unfold bucketAt at hn
    split at hn
    · next h0 =>
      rw [w.hash, w.place i.toNat n hn, Int.toNat_of_nonneg h0]
    · simp at hn
  · intro n hn
    exact (w.search_eq_some_iff hh n.key n.value).2 hn

/-- Instance of C17 on a table that has just shrunk from capacity 100 to 50. -/
theorem bucket_placement_witness :
    (insert (createHashTable 100 foldedHash) 75 1).capacity = 50 ∧
      (∀ (i : Int) (n : HashNode),
        n ∈ bucketAt (insert (createHashTable 100 foldedHash) 75 1).buckets i →
        (insert (createHashTable 100 foldedHash) 75 1).hashFunction n.key
          (insert (createHashTable 100 foldedHash) 75 1).capacity = i) :=
  ⟨by decide,
    (bucket_placement 100 foldedHash (by decide) inRange_foldedHash _
      (Reachable.insert _ 75 1 Reachable.create)).1⟩

/-- C19 (other keys are unaffected): on every reachable table and for distinct keys
`k ≠ k2`, `search(ht, k2, _)` gives the same result (found flag and value) after
`insert(ht, k, v)` as before it, and the same after `removeKey(ht, k)` as before it, also when
the call grows or shrinks the table. -/
theorem search_other_key (c : Int) (h : Int → Int → Int) (hc : 1 ≤ c) (hh : InRange h)
    (ht : HashTable) (r : Reachable c h ht) (k k2 v : Int) (hne : k ≠ k2) :
    search (insert ht k v) k2 = search ht k2 ∧
      search (removeKey ht k).2 k2 = search ht k2 :=
  ⟨(r.wf hc hh).search_insert_other hh hne v, (r.wf hc hh).search_removeKey_other hh hne⟩

/-- Instance of C19 where the insert of key 6 shrinks the table that holds key 5. -/
theorem search_other_key_witness :
    (insert (insert (createHashTable 40 foldedHash) 5 500) 6 600).capacity = 10 ∧
      search (insert (insert (createHashTable 40 foldedHash) 5 500) 6 600) 5
        = search (insert (createHashTable 40 foldedHash) 5 500) 5 :=
  ⟨by decide,
    (search_other_key 40 foldedHash (by decide) inRange_foldedHash _
      (Reachable.insert _ 5 500 Reachable.create) 6 5 600 (by decide)).1⟩

/-- C20 (capacities reachable from 10): for every table reachable from
`createHashTable(10, h)` with an in-range hash function, the capacity is `10 * 2 ^ j` for
some `j`, hence at least 10, and no `insert` call takes the shrink branch: the call is
`insertWithoutResize` alone or followed by one doubling rehash. -/
theorem capacity_from_ten (h : Int → Int → Int) (hh : InRange h) (ht : HashTable)
    (r : Reachable 10 h ht) :
    (∃ j : Nat, ht.capacity = 10 * 2 ^ j) ∧ 10 ≤ ht.capacity ∧
      (∀ k v : Int, insert ht k v = insertWithoutResize ht k v ∨
        insert ht k v = rehash (insertWithoutResize ht k v) (ht.capacity * 2)) := by
  refine ⟨r.capacity_pow, r.ten_le_capacity, ?_⟩
  intro k v
  have w := r.wf (by decide) hh
  by_cases hk : k ∈ keysOf (entries ht)
  · left
    rw [(w.insert_update hh hk v).1, (w.insert_update hh hk v).2]
  · rw [w.insert_new_eq hh hk v]
    have hq := r.quarter_full hh
    split_ifs with ha hb
    · exact Or.inr rfl
    · omega
    · exact Or.inl rfl

/-- Instance of C20 on the table holding exactly key 5. -/
theorem capacity_from_ten_witness :
    (∃ j : Nat, (insert (createHashTable 10 foldedHash) 5 500).capacity = 10 * 2 ^ j) ∧
      10 ≤ (insert (createHashTable 10 foldedHash) 5 500).capacity :=
  ⟨(capacity_from_ten foldedHash inRange_foldedHash _
      (Reachable.insert _ 5 500 Reachable.create)).1,
    (capacity_from_ten foldedHash inRange_foldedHash _
      (Reachable.insert _ 5 500 Reachable.create)).2.1⟩

/-! # The pointer-level engine: doubly linked chains -/

/-! ## Memory -/

theorem readNode_lt {mem : List (Option PNode)} {a : Nat} {n : PNode}
    (h : readNode mem a = some n) : a < mem.length := by
  by_contra hlt
  unfold readNode at h
  rw [List.getD_eq_default _ _ (Nat.le_of_not_lt hlt)] at h
  exact Option.noConfusion h

theorem readNode_set_self {mem : List (Option PNode)} {a : Nat} (x : Option PNode)
    (h : a < mem.length) : readNode (mem.set a x) a = x := by
  unfold readNode
  rw [List.getD_eq_getElem?_getD, List.getElem?_set]
  simp [h]

theorem readNode_set_ne (mem : List (Option PNode)) {a b : Nat} (x : Option PNode)
    (h : b ≠ a) : readNode (mem.set a x) b = readNode mem b := by
  unfold readNode
  rw [List.getD_eq_getElem?_getD, List.getD_eq_getElem?_getD, List.getElem?_set]
  rw [if_neg (fun e => h e.symm)]

theorem readNode_append {mem : List (Option PNode)} {a : Nat} (x : Option PNode)
    (h : a < mem.length) : readNode (mem ++ [x]) a = readNode mem a := by
  unfold readNode
  rw [List.getD_eq_getElem?_getD, List.getD_eq_getElem?_getD, List.getElem?_append_left h]

theorem readNode_append_new (mem : List (Option PNode)) (x : Option PNode) :
    readNode (mem ++ [x]) mem.length = x := by
  unfold readNode
  rw [List.getD_eq_getElem?_getD]
  simp

theorem modifyNode_eq {mem : List (Option PNode)} {a : Nat} {n : PNode}
    (h : readNode mem a = some n) (f : PNode → PNode) :
    modifyNode mem a f = some (mem.set a (some (f n))) := by
  unfold modifyNode; rw [h]

/-! ## Linked segments -/

/-- A segment only depends on the links of its own cells. -/
theorem Seg.mono {mem mem2 : List (Option PNode)} {l : List Nat}
    (hm : ∀ a ∈ l, ∀ n, readNode mem a = some n →
      ∃ n2, readNode mem2 a = some n2 ∧ n2.next = n.next ∧ n2.prev = n.prev)
    {p prev q : Option Nat} (hs : Seg mem p prev l q) : Seg mem2 p prev l q := by
  induction l generalizing p prev with
  | nil => exact hs
  | cons a rest ih =>
    obtain ⟨hp, node, hr, hprev, hrest⟩ := hs
    obtain ⟨n2, hr2, hn, hpv⟩ := hm a (List.mem_cons_self _ _) node hr
    refine ⟨hp, n2, hr2, hpv.trans hprev, ?_⟩
    rw [hn]
    exact ih (fun b hb => hm b (List.mem_cons_of_mem _ hb)) hrest

/-- A segment is unchanged by writes to cells outside it. -/
theorem Seg.frame {mem mem2 : List (Option PNode)} {l : List Nat}
    (hm : ∀ a ∈ l, readNode mem2 a = readNode mem a)
    {p prev q : Option Nat} (hs : Seg mem p prev l q) : Seg mem2 p prev l q :=
  Seg.mono (fun a ha n hn => ⟨n, by rw [hm a ha, hn], rfl, rfl⟩) hs

theorem Seg.lt_length {mem : List (Option PNode)} {l : List Nat} {p prev q : Option Nat}
    (hs : Seg mem p prev l q) : ∀ a ∈ l, a < mem.length := by
  induction l generalizing p prev with
  | nil => intro a ha; simp at ha
  | cons b rest ih =>
    obtain ⟨_, node, hr, _, hrest⟩ := hs
    intro a ha
    rcases List.mem_cons.1 ha with e | hmem
    · rw [e]; exact readNode_lt hr
    · exact ih hrest a hmem

theorem lastOr_nil (prev : Option Nat) : lastOr prev [] = prev := rfl

theorem lastOr_cons (prev : Option Nat) (a : Nat) (l : List Nat) :
    lastOr prev (a :: l) = lastOr (some a) l := by
  cases l with
  | nil => rfl
  | cons b l =>
    have e : (a :: b :: l).getLast? = (b :: l).getLast? := List.getLast?_cons_cons
    unfold lastOr
    rw [e]
    cases hl : (b :: l).getLast? with
    | none => simp at hl
    | some c => rfl

theorem Seg.append {mem : List (Option PNode)} {l1 l2 : List Nat} {p prev q : Option Nat} :
    Seg mem p prev (l1 ++ l2) q ↔
      ∃ m, Seg mem p prev l1 m ∧ Seg mem m (lastOr prev l1) l2 q := by
  induction l1 generalizing p prev with
  | nil =>
    constructor
    · intro hs; exact ⟨p, rfl, hs⟩
    · rintro ⟨m, hm, hs⟩
      have : p = m := hm
      rw [this]; exact hs
  | cons a rest ih =>
    constructor
    · rintro ⟨hp, node, hr, hprev, hrest⟩
      obtain ⟨m, h1, h2⟩ := ih.1 hrest
      exact ⟨m, ⟨hp, node, hr, hprev, h1⟩, by rw [lastOr_cons]; exact h2⟩
    · rintro ⟨m, ⟨hp, node, hr, hprev, h1⟩, h2⟩
      rw [lastOr_cons] at h2
      exact ⟨hp, node, hr, hprev, ih.2 ⟨m, h1, h2⟩⟩

theorem length_le_of_nodup_lt {l : List Nat} {n : Nat} (hn : l.Nodup)
    (hl : ∀ a ∈ l, a < n) : l.length ≤ n := by
  have hsub : l ⊆ List.range n := fun a ha => List.mem_range.2 (hl a ha)
  have := (List.subperm_of_subset hn hsub).length_le
  simpa using this

/-- The scan over a chain returns: it finds a cell of the chain or reaches `NULL`. -/
theorem pFind_seg {mem : List (Option PNode)} (key : Int) {l : List Nat} {p prev : Option Nat}
    (hs : Seg mem p prev l none) {fuel : Nat} (hf : l.length ≤ fuel) :
    ∃ r, pFind mem key fuel p = some r ∧ ∀ a, r = some a → a ∈ l := by
  induction l generalizing p prev fuel with
  | nil =>
    have hp : p = none := hs
    subst hp
    refine ⟨none, ?_, fun a ha => Option.noConfusion ha⟩
    cases fuel <;> rfl
  | cons b rest ih =>
    obtain ⟨hp, node, hr, _, hrest⟩ := hs
    subst hp
    cases fuel with
    | zero => simp at hf
    | succ fuel =>
      simp only [pFind, hr]
      by_cases hk : node.key = key
      · rw [if_pos hk]
        exact ⟨some b, rfl, fun a ha => by
          rw [Option.some.injEq] at ha; rw [← ha]; exact List.mem_cons_self _ _⟩
      · rw [if_neg hk]
        obtain ⟨r, hr2, hmem⟩ := ih hrest (by simpa using hf)
        exact ⟨r, hr2, fun a ha => List.mem_cons_of_mem _ (hmem a ha)⟩

/-! ## Families of chains -/

theorem getD_set_eq {α : Type} (l : List α) (i j : Nat) (c d : α) (hi : i < l.length) :
    (l.set i c).getD j d = if j = i then c else l.getD j d := by
  simp only [List.getD_eq_getElem?_getD, List.getElem?_set]
  by_cases e : i = j
  · subst e; simp [hi]
  · have e2 : ¬ j = i := fun h => e h.symm
    simp [e, e2]

theorem flatten_set_eq {α : Type} (L : List (List α)) (i : Nat) (hi : i < L.length)
    (c : List α) :
    (L.set i c).flatten = (L.take i).flatten ++ (c ++ (L.drop (i + 1)).flatten) := by
  rw [List.set_eq_take_append_cons_drop, if_pos hi, List.flatten_append, List.flatten_cons]

theorem flatten_split_eq {α : Type} (L : List (List α)) (i : Nat) (hi : i < L.length) :
    L.flatten = (L.take i).flatten ++ (L.getD i [] ++ (L.drop (i + 1)).flatten) := by
  conv_lhs => rw [← List.take_append_drop i L]
  rw [List.flatten_append, ← List.getElem_cons_drop L i hi, List.flatten_cons,
    List.getD_eq_getElem _ _ hi]

theorem flatten_set_cons_perm {α : Type} (L : List (List α)) (i : Nat) (hi : i < L.length)
    (a : α) : ((L.set i (a :: L.getD i [])).flatten).Perm (a :: L.flatten) := by
  rw [flatten_set_eq L i hi, flatten_split_eq L i hi, List.cons_append]
  exact List.perm_middle

theorem flatten_set_sublist {α : Type} (L : List (List α)) (i : Nat) (hi : i < L.length)
    {c : List α} (hc : c.Sublist (L.getD i [])) :
    ((L.set i c).flatten).Sublist L.flatten := by
  rw [flatten_set_eq L i hi, flatten_split_eq L i hi]
  exact (List.Sublist.refl _).append (hc.append (List.Sublist.refl _))

theorem mem_flatten_of_getD {α : Type} {L : List (List α)} {i : Nat} {x : α}
    (h : x ∈ L.getD i []) : x ∈ L.flatten := by
  by_cases hi : i < L.length
  · rw [List.getD_eq_getElem _ _ hi] at h
    exact List.mem_flatten.2 ⟨_, List.getElem_mem hi, h⟩
  · rw [List.getD_eq_default _ _ (Nat.le_of_not_lt hi)] at h; simp at h

theorem nodup_getD_of_flatten {α : Type} {L : List (List α)} (hn : L.flatten.Nodup)
    (i : Nat) : (L.getD i []).Nodup := by
  by_cases hi : i < L.length
  · rw [List.getD_eq_getElem _ _ hi]
    exact (List.nodup_flatten.1 hn).1 _ (List.getElem_mem hi)
  · rw [List.getD_eq_default _ _ (Nat.le_of_not_lt hi)]; exact List.nodup_nil

theorem disjoint_getD_of_flatten {α : Type} {L : List (List α)} (hn : L.flatten.Nodup)
    {i j : Nat} (hij : i ≠ j) {x : α} (hi : x ∈ L.getD i []) : x ∉ L.getD j [] := by
  intro hj
  have hil : i < L.length := by
    by_contra h
    rw [List.getD_eq_default _ _ (Nat.le_of_not_lt h)] at hi; simp at hi
  have hjl : j < L.length := by
    by_contra h
    rw [List.getD_eq_default _ _ (Nat.le_of_not_lt h)] at hj; simp at hj
  rw [List.getD_eq_getElem _ _ hil] at hi
  rw [List.getD_eq_getElem _ _ hjl] at hj
  have hp := List.pairwise_iff_getElem.1 (List.nodup_flatten.1 hn).2
  rcases Nat.lt_or_gt_of_ne hij with h | h
  · exact hp i j hil hjl h hi hj
  · exact hp j i hjl hil h hj hi

theorem headAt_eq {heads : List (Option Nat)} {idx : Int} (h0 : 0 ≤ idx)
    (hi : idx.toNat < heads.length) :
    headAt heads idx = some (heads.getD idx.toNat none) := by
  unfold headAt
  rw [if_pos h0, List.getElem?_eq_getElem hi, List.getD_eq_getElem _ _ hi]

/-- The head splice keeps every chain consistent and puts the cell `a` first in chain
`idx`; it writes only to `a` and to the former head of that chain. -/
theorem pPush_chains {mem : List (Option PNode)} {heads : List (Option Nat)}
    {L : List (List Nat)} (hch : Chains mem heads L) (hn : L.flatten.Nodup)
    {idx : Int} (h0 : 0 ≤ idx) (hi : idx.toNat < heads.length)
    {a : Nat} {n : PNode} (hr : readNode mem a = some n) (hprev : n.prev = none)
    (ha : a ∉ L.flatten) :
    ∃ mem2, pPush mem heads idx a = some (mem2, heads.set idx.toNat (some a)) ∧
      Chains mem2 (heads.set idx.toNat (some a))
        (L.set idx.toNat (a :: L.getD idx.toNat [])) ∧
      mem2.length = mem.length ∧
      (∀ x, x ≠ a → x ∉ L.getD idx.toNat [] → readNode mem2 x = readNode mem x) := by
  obtain ⟨hlen, hseg⟩ := hch
  have hiL : idx.toNat < L.length := by rw [← hlen]; exact hi
  have hal : a < mem.length := readNode_lt hr
  have hai : a ∉ L.getD idx.toNat [] := fun h => ha (mem_flatten_of_getD h)
  have hsi := hseg idx.toNat
  have hnd := nodup_getD_of_flatten hn idx.toNat
  -- the chain that receives the cell
  have key : ∃ mem2, pPush mem heads idx a = some (mem2, heads.set idx.toNat (some a)) ∧
      Seg mem2 (some a) none (a :: L.getD idx.toNat []) none ∧ mem2.length = mem.length ∧
      (∀ x, x ≠ a → x ∉ L.getD idx.toNat [] → readNode mem2 x = readNode mem x) := by
    unfold pPush
    rw [headAt_eq h0 hi]
    simp only [modifyNode_eq hr]
    generalize heads.getD idx.toNat none = head at hsi
    cases hl : L.getD idx.toNat [] with
    | nil =>
      rw [hl] at hsi
      have hh : head = none := hsi
      subst hh
      refine ⟨_, rfl, ⟨rfl, _, readNode_set_self _ hal, hprev, rfl⟩, by simp, ?_⟩
      intro x hx _
      exact readNode_set_ne _ _ hx
    | cons hd rest =>
      rw [hl] at hsi hai hnd
      obtain ⟨hh, nhd, hrh, hph, hrest⟩ := hsi
      subst hh
      have hne : hd ≠ a := fun e => hai (by rw [e]; exact List.mem_cons_self _ _)
      have hr1 : readNode (mem.set a (some { n with next := some hd })) hd = some nhd := by
        rw [readNode_set_ne _ _ hne]; exact hrh
      simp only [modifyNode_eq hr1]
      have hdl : hd < (mem.set a (some { n with next := some hd })).length := readNode_lt hr1
      refine ⟨_, rfl, ⟨rfl, { n with next := some hd }, ?_, hprev, rfl, _,
        readNode_set_self _ hdl, rfl, ?_⟩, by simp, ?_⟩
      · rw [readNode_set_ne _ _ (fun e => hne e.symm)]; exact readNode_set_self _ hal
      · apply Seg.frame _ hrest
        intro x hx
        have hx1 : x ≠ hd := fun e => (List.nodup_cons.1 hnd).1 (by rw [← e]; exact hx)
        have hx2 : x ≠ a := fun e => hai (by rw [← e]; exact List.mem_cons_of_mem _ hx)
        rw [readNode_set_ne _ _ hx1, readNode_set_ne _ _ hx2]
      · intro x hx hxl
        have hx1 : x ≠ hd := fun e => hxl (by rw [e]; exact List.mem_cons_self _ _)
        rw [readNode_set_ne _ _ hx1, readNode_set_ne _ _ hx]
  obtain ⟨mem2, hp, hs2, hl2, hfr⟩ := key
  refine ⟨mem2, hp, ⟨by simp [hlen], ?_⟩, hl2, hfr⟩
  intro j
  rw [getD_set_eq _ _ _ _ _ hi, getD_set_eq _ _ _ _ _ hiL]
  by_cases e : j = idx.toNat
  · rw [if_pos e, if_pos e]; exact hs2
  · rw [if_neg e, if_neg e]
    apply Seg.frame _ (hseg j)
    intro x hx
    apply hfr x
    · intro e2; exact ha (by rw [← e2]; exact mem_flatten_of_getD hx)
    · exact disjoint_getD_of_flatten hn e hx

/-! ## The pointer-level rehash -/

theorem Chains.of_frame {mem mem2 : List (Option PNode)} {heads : List (Option Nat)}
    {L : List (List Nat)} (hch : Chains mem heads L)
    (hm : ∀ x ∈ L.flatten, readNode mem2 x = readNode mem x) : Chains mem2 heads L :=
  ⟨hch.1, fun i => Seg.frame (fun x hx => hm x (mem_flatten_of_getD hx)) (hch.2 i)⟩

/-- The inner loop of a rehash moves the cells of the chain it walks into the new chains
and keeps these consistent; it writes to no other cell. -/
theorem pRehashChain_spec {h : Int → Int → Int} (hh : InRange h) {c : Int} (hc : 1 ≤ c)
    (rest : List Nat) :
    ∀ {mem : List (Option PNode)} {nb : List (Option Nat)} {L : List (List Nat)}
      {node pv : Option Nat} (sz : Int) {fuel : Nat},
      nb.length = c.toNat → Seg mem node pv rest none → Chains mem nb L →
      (rest ++ L.flatten).Nodup → rest.length ≤ fuel →
      ∃ mem2 nb2 L2, pRehashChain h c fuel node (mem, nb, sz)
          = some (mem2, nb2, sz + (rest.length : Int)) ∧
        Chains mem2 nb2 L2 ∧ (L2.flatten).Perm (rest ++ L.flatten) ∧
        mem2.length = mem.length ∧ nb2.length = nb.length ∧
        (∀ x, x ∉ rest → x ∉ L.flatten → readNode mem2 x = readNode mem x) := by
  induction rest with
  | nil =>
    intro mem nb L node pv sz fuel _ hs hch _ _
    have hp : node = none := hs
    subst hp
    refine ⟨mem, nb, L, ?_, hch, List.Perm.refl _, rfl, rfl, fun _ _ _ => rfl⟩
    cases fuel <;> simp [pRehashChain]
  | cons a rest ih =>
    intro mem nb L node pv sz fuel hnb hs hch hnd hf
    obtain ⟨hp, n, hr, _, hrest⟩ := hs
    subst hp
    cases fuel with
    | zero => simp at hf
    | succ fuel =>
      have hal : a < mem.length := readNode_lt hr
      have hnd2 : (a :: (rest ++ L.flatten)).Nodup := by simpa using hnd
      obtain ⟨ha, hnd3⟩ := List.nodup_cons.1 hnd2
      have haL : a ∉ L.flatten := fun hx => ha (List.mem_append_right _ hx)
      have haR : a ∉ rest := fun hx => ha (List.mem_append_left _ hx)
      have hLn : L.flatten.Nodup := (List.nodup_append.1 hnd3).2.1
      have hdisj : ∀ x, x ∈ rest → x ∉ L.flatten := fun x hx hxl =>
        (List.nodup_append.1 hnd3).2.2 hx hxl
      obtain ⟨h0, h1⟩ := index_lt hh hc n.key
      have hi : (h n.key c).toNat < nb.length := by rw [hnb]; exact h1
      have hch1 : Chains (mem.set a (some { n with next := none, prev := none })) nb L :=
        hch.of_frame (fun x hx => readNode_set_ne _ _ (fun e => haL (by rw [← e]; exact hx)))
      obtain ⟨mem2, hpush, hch2, hl2, hfr2⟩ :=
        pPush_chains hch1 hLn h0 hi (readNode_set_self _ hal) rfl haL
      have hperm2 := flatten_set_cons_perm L (h n.key c).toNat (by rw [← hch.1]; exact hi) a
      have hseg2 : Seg mem2 n.next (some a) rest none := by
        apply Seg.frame _ hrest
        intro x hx
        have hxa : x ≠ a := fun e => haR (by rw [← e]; exact hx)
        rw [hfr2 x hxa (fun hxl => hdisj x hx (mem_flatten_of_getD hxl)),
          readNode_set_ne _ _ hxa]
      have hnd4 : (rest ++ (L.set (h n.key c).toNat
          (a :: L.getD (h n.key c).toNat [])).flatten).Nodup := by
        have hp : (rest ++ (L.set (h n.key c).toNat
            (a :: L.getD (h n.key c).toNat [])).flatten).Perm (a :: (rest ++ L.flatten)) :=
          (List.Perm.append_left rest hperm2).trans List.perm_middle
        exact hp.nodup_iff.2 hnd2
      obtain ⟨mem3, nb3, L3, hrun, hch3, hperm3, hl3, hnb3, hfr3⟩ :=
        ih (sz + 1) (by simpa using hnb) hseg2 hch2 hnd4 (by simpa using hf)
      refine ⟨mem3, nb3, L3, ?_, hch3, ?_, ?_, ?_, ?_⟩
      · simp only [pRehashChain, hr, hpush, hrun, List.length_cons, Nat.cast_add,
          Nat.cast_one]
        congr 3
        ring
      · exact hperm3.trans ((List.Perm.append_left rest hperm2).trans List.perm_middle)
      · rw [hl3, hl2]; simp
      · rw [hnb3]; simp
      · intro x hx1 hx2
        have hxa : x ≠ a := fun e => hx1 (by rw [e]; exact List.mem_cons_self _ _)
        have hxr : x ∉ rest := fun hx => hx1 (List.mem_cons_of_mem _ hx)
        have hx3 : x ∉ (L.set (h n.key c).toNat (a :: L.getD (h n.key c).toNat [])).flatten :=
          fun hx => by
            rcases List.mem_cons.1 (hperm2.mem_iff.1 hx) with e | hx4
            · exact hxa e
            · exact hx2 hx4
        rw [hfr3 x hxr hx3,
          hfr2 x hxa (fun hxl => hx2 (mem_flatten_of_getD hxl)), readNode_set_ne _ _ hxa]

/-- The outer loop of a rehash, over the old buckets `is` still to visit. -/
theorem pRehashBuckets_spec {h : Int → Int → Int} (hh : InRange h) {c : Int} (hc : 1 ≤ c)
    (old : List (Option Nat)) (Lold : List (List Nat)) (fuel : Nat) (is : List Nat) :
    ∀ {mem : List (Option PNode)} {nb : List (Option Nat)} {L : List (List Nat)} (sz : Int),
      nb.length = c.toNat →
      (∀ i ∈ is, i < old.length ∧ (Lold.getD i []).length ≤ fuel ∧
        Seg mem (old.getD i none) none (Lold.getD i []) none) →
      Chains mem nb L →
      ((is.map (fun i => Lold.getD i [])).flatten ++ L.flatten).Nodup →
      ∃ mem2 nb2 L2 sz2, pRehashBuckets h c old fuel is (mem, nb, sz) = some (mem2, nb2, sz2) ∧
        Chains mem2 nb2 L2 ∧
        (L2.flatten).Perm ((is.map (fun i => Lold.getD i [])).flatten ++ L.flatten) ∧
        mem2.length = mem.length ∧ nb2.length = nb.length := by
  induction is with
  | nil =>
    intro mem nb L sz _ _ hch _
    exact ⟨mem, nb, L, sz, rfl, hch, by simp, rfl, rfl⟩
  | cons i is ih =>
    intro mem nb L sz hnb hold hch hnd
    obtain ⟨hi, hfuel, hseg⟩ := hold i (List.mem_cons_self _ _)
    simp only [List.map_cons, List.flatten_cons, List.append_assoc] at hnd
    have hnd1 : (Lold.getD i [] ++ L.flatten).Nodup := by
      have := hnd
      rw [← List.append_assoc] at this
      have h2 : (Lold.getD i [] ++ L.flatten).Sublist
          ((Lold.getD i [] ++ (is.map (fun i => Lold.getD i [])).flatten) ++ L.flatten) :=
        (List.sublist_append_left _ _).append (List.Sublist.refl _)
      exact List.Nodup.sublist h2 this
    obtain ⟨mem2, nb2, L2, hrun, hch2, hperm2, hl2, hnb2, hfr2⟩ :=
      pRehashChain_spec hh hc (Lold.getD i []) sz hnb hseg hch hnd1 hfuel
    have hnd2 : ((is.map (fun i => Lold.getD i [])).flatten ++ L2.flatten).Nodup := by
      have hp : ((is.map (fun i => Lold.getD i [])).flatten ++ L2.flatten).Perm
          (Lold.getD i [] ++ ((is.map (fun i => Lold.getD i [])).flatten ++ L.flatten)) := by
        refine (List.Perm.append_left _ hperm2).trans ?_
        rw [← List.append_assoc, ← List.append_assoc]
        exact List.Perm.append_right _ List.perm_append_comm
      exact hp.nodup_iff.2 hnd
    have hold2 : ∀ j ∈ is, j < old.length ∧ (Lold.getD j []).length ≤ fuel ∧
        Seg mem2 (old.getD j none) none (Lold.getD j []) none := by
      intro j hj
      obtain ⟨h1, h2, h3⟩ := hold j (List.mem_cons_of_mem _ hj)
      refine ⟨h1, h2, Seg.frame ?_ h3⟩
      intro x hx
      have hxm : x ∈ (is.map (fun i => Lold.getD i [])).flatten :=
        List.mem_flatten.2 ⟨_, List.mem_map.2 ⟨j, hj, rfl⟩, hx⟩
      apply hfr2 x
      · intro hxi
        exact (List.nodup_append.1 hnd).2.2 hxi (List.mem_append_left _ hxm)
      · intro hxl
        exact (List.nodup_append.1 (List.nodup_append.1 hnd).2.1).2.2 hxm hxl
    obtain ⟨mem3, nb3, L3, sz3, hrun3, hch3, hperm3, hl3, hnb3⟩ :=
      ih (sz + ((Lold.getD i []).length : Int)) (by rw [hnb2]; exact hnb) hold2 hch2 hnd2
    refine ⟨mem3, nb3, L3, sz3, ?_, hch3, ?_, by rw [hl3, hl2], by rw [hnb3, hnb2]⟩
    · simp only [pRehashBuckets]
      rw [headAt_eq (Int.ofNat_nonneg i) (by simpa using hi)]
      simp only [Int.toNat_ofNat, hrun, hrun3]
    · refine hperm3.trans ?_
      simp only [List.map_cons, List.flatten_cons, List.append_assoc]
      refine (List.Perm.append_left _ hperm2).trans ?_
      rw [← List.append_assoc, ← List.append_assoc]
      exact List.Perm.append_right _ List.perm_append_comm

theorem map_getD_range {α : Type} (L : List α) (d : α) :
    (List.range L.length).map (fun i => L.getD i d) = L := by
  apply List.ext_getElem
  · simp
  · intro j h1 h2
    rw [List.getElem_map, List.getElem_range, List.getD_eq_getElem _ _ h2]

theorem chains_empty (mem : List (Option PNode)) (n : Nat) :
    Chains mem (List.replicate n none) (List.replicate n []) := by
  refine ⟨by simp, fun i => ?_⟩
  have e1 : (List.replicate n (none : Option Nat)).getD i none = none := by
    rw [List.getD_eq_getElem?_getD, List.getElem?_replicate]; split <;> rfl
  have e2 : (List.replicate n ([] : List Nat)).getD i [] = [] := by
    rw [List.getD_eq_getElem?_getD, List.getElem?_replicate]; split <;> rfl
  rw [e1, e2]
  rfl

theorem PWF.chain_length_le {h : Int → Int → Int} {ht : PTable} {L : List (List Nat)}
    (w : PWF h ht L) (i : Nat) : (L.getD i []).length ≤ ht.mem.length :=
  length_le_of_nodup_lt (nodup_getD_of_flatten w.nodup i) (w.chains.2 i).lt_length

/-- The pointer-level rehash returns and leaves a table that satisfies the invariant. -/
theorem PWF.pRehash_returns {h : Int → Int → Int} {ht : PTable} {L : List (List Nat)}
    (w : PWF h ht L) (hh : InRange h) {c : Int} (hc : 1 ≤ c) :
    ∃ ht2 L2, HandsOn10.pRehash ht c = some ht2 ∧ PWF h ht2 L2 ∧ ht2.capacity = c := by
  have hLlen : L.length = ht.capacity.toNat := by rw [← w.chains.1, w.len]
  have hnd : (((List.range ht.capacity.toNat).map (fun i => L.getD i [])).flatten
      ++ (List.replicate c.toNat ([] : List Nat)).flatten).Nodup := by
    rw [← hLlen, map_getD_range]
    simpa using w.nodup
  obtain ⟨mem2, nb2, L2, sz2, hrun, hch2, hperm2, _, hnb2⟩ :=
    pRehashBuckets_spec hh hc ht.buckets L ht.mem.length (List.range ht.capacity.toNat)
      0 (List.length_replicate c.toNat none)
      (fun i hi => ⟨by rw [w.len]; exact List.mem_range.1 hi, w.chain_length_le i,
        w.chains.2 i⟩)
      (chains_empty ht.mem c.toNat) hnd
  refine ⟨{ ht with mem := mem2, buckets := nb2, capacity := c, size := sz2 }, L2, ?_,
    ⟨w.hash, hc, by rw [hnb2]; simp, hch2, hperm2.nodup_iff.2 hnd⟩, rfl⟩
  unfold HandsOn10.pRehash
  rw [w.hash, hrun]

/-! ## The unsplice -/

theorem set_getD_self (heads : List (Option Nat)) (i : Nat) :
    heads.set i (heads.getD i none) = heads := by
  apply List.ext_getElem
  · simp
  · intro j h1 h2
    rw [List.getElem_set]
    split
    · next e => subst e; rw [List.getD_eq_getElem _ _ h2]
    · rfl

theorem Seg.set_last_next {mem : List (Option PNode)} {l : List Nat} {p prev m : Option Nat}
    (hs : Seg mem p prev l m) (hn : l.Nodup) {pa : Nat} (hl : l.getLast? = some pa)
    {npa : PNode} (hr : readNode mem pa = some npa) (q : Option Nat) :
    Seg (mem.set pa (some { npa with next := q })) p prev l q := by
  induction l generalizing p prev with
  | nil => simp at hl
  | cons b rest ih =>
    obtain ⟨hp, node, hrb, hprev, hrest⟩ := hs
    obtain ⟨hb, hn2⟩ := List.nodup_cons.1 hn
    cases rest with
    | nil =>
      simp only [List.getLast?_singleton, Option.some.injEq] at hl
      subst hl
      rw [hrb, Option.some.injEq] at hr
      subst hr
      exact ⟨hp, _, readNode_set_self _ (readNode_lt hrb), hprev, rfl⟩
    | cons b2 r =>
      have hl2 : (b2 :: r).getLast? = some pa := by
        rw [← hl]; exact List.getLast?_cons_cons.symm
      have hpa : pa ∈ b2 :: r := List.mem_of_getLast?_eq_some hl2
      have hne : b ≠ pa := fun e => hb (by rw [e]; exact hpa)
      exact ⟨hp, node, by rw [readNode_set_ne _ _ hne]; exact hrb, hprev, ih hrest hn2 hl2⟩

theorem Seg.set_first_prev {mem : List (Option PNode)} {l : List Nat} {nb : Nat}
    {p pv q : Option Nat} (hs : Seg mem p pv (nb :: l) q) (hn : nb ∉ l) (pv2 : Option Nat) :
    ∃ nn, readNode mem nb = some nn ∧
      Seg (mem.set nb (some { nn with prev := pv2 })) p pv2 (nb :: l) q := by
  obtain ⟨hp, node, hr, _, hrest⟩ := hs
  refine ⟨node, hr, hp, _, readNode_set_self _ (readNode_lt hr), rfl, ?_⟩
  apply Seg.frame _ hrest
  intro x hx
  exact readNode_set_ne _ _ (fun e => hn (by rw [← e]; exact hx))

/-- The unsplice of the cell `a` from the chain `l1 ++ a :: l2` of bucket `idx` returns and
leaves the chain `l1 ++ l2`; it writes only to cells of that chain. -/
theorem pUnsplice_seg {mem : List (Option PNode)} {heads : List (Option Nat)} {idx : Int}
    {a : Nat} {cur : PNode} {l1 l2 : List Nat}
    (hs : Seg mem (heads.getD idx.toNat none) none (l1 ++ a :: l2) none)
    (hnd : (l1 ++ a :: l2).Nodup) (hr : readNode mem a = some cur) :
    ∃ mem3 head3, pUnsplice mem heads idx a cur = some (mem3, heads.set idx.toNat head3) ∧
      Seg mem3 head3 none (l1 ++ l2) none ∧ mem3.length = mem.length ∧
      (∀ x, x ∉ l1 ++ a :: l2 → readNode mem3 x = readNode mem x) := by
  obtain ⟨m, hs1, hs2⟩ := Seg.append.1 hs
  obtain ⟨hm, node, hra, hprev, hs3⟩ := hs2
  subst hm
  rw [hr, Option.some.injEq] at hra
  subst hra
  have hnd1 : l1.Nodup := (List.nodup_append.1 hnd).1
  have hnd2 : (a :: l2).Nodup := (List.nodup_append.1 hnd).2.1
  have hdis : ∀ x, x ∈ l1 → x ∉ a :: l2 := fun x hx hx2 => (List.nodup_append.1 hnd).2.2 hx hx2
  have ha1 : a ∉ l1 := fun hx => hdis a hx (List.mem_cons_self _ _)
  have ha2 : a ∉ l2 := (List.nodup_cons.1 hnd2).1
  -- first assignment: the predecessor's `next`, or the bucket head
  have step1 : ∃ mem1 head3,
      (match cur.prev with
        | some p => (modifyNode mem p (fun n => { n with next := cur.next })).map
            (fun m => (m, heads))
        | none => some (mem, heads.set idx.toNat cur.next))
        = some (mem1, heads.set idx.toNat head3) ∧
      Seg mem1 head3 none l1 cur.next ∧ mem1.length = mem.length ∧
      (∀ x, x ∉ l1 → readNode mem1 x = readNode mem x) := by
    cases hl : l1.getLast? with
    | none =>
      have e1 : l1 = [] := List.getLast?_eq_none_iff.1 hl
      subst e1
      have hp : cur.prev = none := hprev
      rw [hp]
      exact ⟨mem, cur.next, rfl, rfl, rfl, fun _ _ => rfl⟩
    | some pa =>
      have hp : cur.prev = some pa := by rw [hprev]; unfold lastOr; rw [hl]
      have hpa : pa ∈ l1 := List.mem_of_getLast?_eq_some hl
      have hpl := hs1.lt_length pa hpa
      cases hrp : readNode mem pa with
      | none =>
        exfalso
        obtain ⟨ys, e⟩ := List.getLast?_eq_some_iff.1 hl
        rw [e] at hs1
        obtain ⟨m2, _, hs5⟩ := Seg.append.1 hs1
        obtain ⟨_, n5, hr5, _⟩ := hs5
        rw [hrp] at hr5
        exact Option.noConfusion hr5
      | some npa =>
        rw [hp]
        simp only [modifyNode_eq hrp, Option.map_some']
        refine ⟨_, heads.getD idx.toNat none, by rw [set_getD_self],
          hs1.set_last_next hnd1 hl hrp cur.next, by simp, ?_⟩
        intro x hx
        exact readNode_set_ne _ _ (fun e => hx (by rw [e]; exact hpa))
  obtain ⟨mem1, head3, he1, hseg1, hlen1, hfr1⟩ := step1
  have hs3b : Seg mem1 cur.next (some a) l2 none :=
    Seg.frame (fun x hx => hfr1 x (fun hx1 => hdis x hx1 (List.mem_cons_of_mem _ hx))) hs3
  -- second assignment: the successor's `prev`
  have step2 : ∃ mem2,
      (match cur.next with
        | some nx => modifyNode mem1 nx (fun n => { n with prev := cur.prev })
        | none => some mem1) = some mem2 ∧
      Seg mem2 cur.next cur.prev l2 none ∧ mem2.length = mem1.length ∧
      (∀ x, x ∉ l2 → readNode mem2 x = readNode mem1 x) := by
    cases l2 with
    | nil =>
      have hn : cur.next = none := hs3b
      rw [hn]
      exact ⟨mem1, rfl, rfl, rfl, fun _ _ => rfl⟩
    | cons nx l2b =>
      have hn : cur.next = some nx := hs3b.1
      have hnx : nx ∉ l2b := (List.nodup_cons.1 (List.nodup_cons.1 hnd2).2).1
      obtain ⟨nn, hrn, hseg⟩ := hs3b.set_first_prev hnx cur.prev
      rw [hn]
      simp only [modifyNode_eq hrn]
      refine ⟨_, rfl, by rw [← hn]; exact hseg, by simp, ?_⟩
      intro x hx
      exact readNode_set_ne _ _ (fun e => hx (by rw [e]; exact List.mem_cons_self _ _))
  obtain ⟨mem2, he2, hseg2, hlen2, hfr2⟩ := step2
  have hseg1b : Seg mem2 head3 none l1 cur.next :=
    Seg.frame (fun x hx => hfr2 x (fun hx2 => hdis x hx (List.mem_cons_of_mem _ hx2))) hseg1
  refine ⟨mem2.set a none, head3, ?_, ?_, by rw [List.length_set, hlen2, hlen1], ?_⟩
  · unfold pUnsplice
    rw [he1]
    simp only [he2]
  · apply Seg.append.2
    refine ⟨cur.next, Seg.frame ?_ hseg1b, ?_⟩
    · intro x hx
      exact readNode_set_ne _ _ (fun e => ha1 (by rw [← e]; exact hx))
    · rw [← hprev]
      apply Seg.frame _ hseg2
      intro x hx
      exact readNode_set_ne _ _ (fun e => ha2 (by rw [← e]; exact hx))
  · intro x hx
    have hxa : x ≠ a := fun e => hx (by rw [e]; simp)
    have hx1 : x ∉ l1 := fun h => hx (List.mem_append_left _ h)
    have hx2 : x ∉ l2 := fun h => hx (List.mem_append_right _ (List.mem_cons_of_mem _ h))
    rw [readNode_set_ne _ _ hxa, hfr2 x hx2, hfr1 x hx1]

/-! ## The pointer-level invariant -/

theorem Seg.read_of_mem {mem : List (Option PNode)} {l : List Nat} {p prev q : Option Nat}
    (hs : Seg mem p prev l q) {a : Nat} (ha : a ∈ l) : ∃ n, readNode mem a = some n := by
  induction l generalizing p prev with
  | nil => simp at ha
  | cons b rest ih =>
    obtain ⟨_, node, hr, _, hrest⟩ := hs
    rcases List.mem_cons.1 ha with e | hmem
    · rw [e]; exact ⟨node, hr⟩
    · exact ih hrest hmem

theorem Seg.isDoublyLinked_aux {mem : List (Option PNode)} {l : List Nat}
    {p prev : Option Nat} (hs : Seg mem p prev l none) :
    p = l.head? ∧
      ∀ j : Nat, j < l.length → ∃ node, (l[j]?).bind (readNode mem) = some node ∧
        node.next = l[j + 1]? ∧ node.prev = (if j = 0 then prev else l[j - 1]?) := by
  induction l generalizing p prev with
  | nil => exact ⟨hs, fun j hj => by simp at hj⟩
  | cons a rest ih =>
    obtain ⟨hp, node, hr, hprev, hrest⟩ := hs
    obtain ⟨ih1, ih2⟩ := ih hrest
    refine ⟨hp, ?_⟩
    intro j hj
    cases j with
    | zero =>
      refine ⟨node, by simpa using hr, ?_, by simpa using hprev⟩
      rw [ih1]
      cases rest <;> simp
    | succ j =>
      obtain ⟨n2, h1, h2, h3⟩ := ih2 j (by simpa using hj)
      refine ⟨n2, by simpa using h1, by simpa using h2, ?_⟩
      rw [h3]
      cases j with
      | zero => simp
      | succ j => simp

theorem Seg.isDoublyLinked {mem : List (Option PNode)} {l : List Nat} {head : Option Nat}
    (hs : Seg mem head none l none) : IsDoublyLinked mem head l := by
  obtain ⟨h1, h2⟩ := hs.isDoublyLinked_aux
  refine ⟨h1, fun j hj => ?_⟩
  obtain ⟨node, a, b, c⟩ := h2 j hj
  exact ⟨node, a, b, c⟩

theorem PWF.head_index {h : Int → Int → Int} {ht : PTable} {L : List (List Nat)}
    (w : PWF h ht L) (hh : InRange h) (k : Int) :
    0 ≤ ht.hashFunction k ht.capacity ∧
      (ht.hashFunction k ht.capacity).toNat < ht.buckets.length := by
  rw [w.hash, w.len]; exact index_lt hh w.cap k

theorem PWF_create (h : Int → Int → Int) {c : Int} (hc : 1 ≤ c) :
    PWF h (pCreateHashTable c h) (List.replicate c.toNat []) :=
  ⟨rfl, hc, by simp [pCreateHashTable], chains_empty _ _, by simp⟩

theorem PWF.shrink_returns {h : Int → Int → Int} {ht : PTable} {L : List (List Nat)}
    (w : PWF h ht L) (hh : InRange h) (below : Bool) :
    ∃ ht2 L2, (if 10 < ht.capacity ∧ below = true
        then HandsOn10.pRehash ht (Int.tdiv ht.capacity 2) else some ht) = some ht2 ∧
      PWF h ht2 L2 := by
  split
  · next hc =>
    obtain ⟨ht2, L2, he, w2, _⟩ := w.pRehash_returns hh (tdiv_two_pos hc.1)
    exact ⟨ht2, L2, he, w2⟩
  · exact ⟨ht, L, rfl, w⟩

theorem PWF.grow_returns {h : Int → Int → Int} {ht : PTable} {L : List (List Nat)}
    (w : PWF h ht L) (hh : InRange h) (above : Bool) :
    ∃ ht2 L2, (if above = true
        then HandsOn10.pRehash ht (ht.capacity * 2) else some ht) = some ht2 ∧
      PWF h ht2 L2 := by
  split
  · obtain ⟨ht2, L2, he, w2, _⟩ := w.pRehash_returns hh (c := ht.capacity * 2)
      (by have := w.cap; omega)
    exact ⟨ht2, L2, he, w2⟩
  · exact ⟨ht, L, rfl, w⟩

/-- Pointer-level `insert` returns on a table that satisfies the invariant, and the table
it leaves satisfies it. -/
theorem PWF.pInsert_returns {h : Int → Int → Int} {ht : PTable} {L : List (List Nat)}
    (w : PWF h ht L) (hh : InRange h) (k v : Int) :
    ∃ ht2 L2, HandsOn10.pInsert ht k v = some ht2 ∧ PWF h ht2 L2 := by
  obtain ⟨h0, hi⟩ := w.head_index hh k
  have hseg := w.chains.2 (ht.hashFunction k ht.capacity).toNat
  obtain ⟨r, hfind, hmem⟩ := pFind_seg k hseg (w.chain_length_le _)
  unfold HandsOn10.pInsert
  simp only [headAt_eq h0 hi, hfind]
  cases r with
  | some a =>
    obtain ⟨n, hr⟩ := hseg.read_of_mem (hmem a rfl)
    simp only [modifyNode_eq hr]
    refine ⟨_, L, rfl, w.hash, w.cap, w.len, ⟨w.chains.1, fun j => ?_⟩, w.nodup⟩
    apply Seg.mono _ (w.chains.2 j)
    intro x _ nx hx
    by_cases e : x = a
    · subst e
      rw [hr, Option.some.injEq] at hx
      subst hx
      exact ⟨_, readNode_set_self _ (readNode_lt hr), rfl, rfl⟩
    · exact ⟨nx, by rw [readNode_set_ne _ _ e]; exact hx, rfl, rfl⟩
  | none =>
    simp only
    have hfresh : ∀ x ∈ L.flatten, x < ht.mem.length := by
      intro x hx
      obtain ⟨l, hl, hxl⟩ := List.mem_flatten.1 hx
      obtain ⟨j, hj, e⟩ := List.mem_iff_getElem.1 hl
      have := (w.chains.2 j).lt_length x
      rw [List.getD_eq_getElem _ _ hj, e] at this
      exact this hxl
    have ha : ht.mem.length ∉ L.flatten := fun hx => Nat.lt_irrefl _ (hfresh _ hx)
    have hch0 : Chains (ht.mem ++ [some ⟨k, v, none, none⟩]) ht.buckets L :=
      w.chains.of_frame (fun x hx => readNode_append _ (hfresh x hx))
    obtain ⟨mem2, hpush, hch2, _, _⟩ :=
      pPush_chains hch0 w.nodup h0 hi (readNode_append_new _ _) rfl ha
    have hiL : (ht.hashFunction k ht.capacity).toNat < L.length := by
      rw [← w.chains.1]; exact hi
    have w1 : PWF h
        (PTable.mk mem2
          (ht.buckets.set (ht.hashFunction k ht.capacity).toNat (some ht.mem.length))
          ht.capacity (ht.size + 1) ht.hashFunction)
        (L.set (ht.hashFunction k ht.capacity).toNat
          (ht.mem.length :: L.getD (ht.hashFunction k ht.capacity).toNat [])) :=
      ⟨w.hash, w.cap, by simp [w.len], hch2,
        (flatten_set_cons_perm L _ hiL _).nodup_iff.2 (List.nodup_cons.2 ⟨ha, w.nodup⟩)⟩
    obtain ⟨ht2, L2, he2, w2⟩ := w1.grow_returns hh (loadFactorAbove (ht.size + 1) ht.capacity)
    obtain ⟨ht3, L3, he3, w3⟩ := w2.shrink_returns hh (loadFactorBelow (ht.size + 1) ht.capacity)
    refine ⟨ht3, L3, ?_, w3⟩
    simp only [hpush]
    simp only at he2
    rw [he2]
    exact he3

/-- Pointer-level `removeKey` returns on a table that satisfies the invariant, and the
table it leaves satisfies it. -/
theorem PWF.pRemoveKey_returns {h : Int → Int → Int} {ht : PTable} {L : List (List Nat)}
    (w : PWF h ht L) (hh : InRange h) (k : Int) :
    ∃ r L2, HandsOn10.pRemoveKey ht k = some r ∧ PWF h r.2 L2 := by
  obtain ⟨h0, hi⟩ := w.head_index hh k
  have hseg := w.chains.2 (ht.hashFunction k ht.capacity).toNat
  obtain ⟨r, hfind, hmem⟩ := pFind_seg k hseg (w.chain_length_le _)
  unfold HandsOn10.pRemoveKey
  simp only [headAt_eq h0 hi, hfind]
  cases r with
  | none => exact ⟨(false, ht), L, rfl, w⟩
  | some a =>
    have hal := hmem a rfl
    obtain ⟨cur, hr⟩ := hseg.read_of_mem hal
    obtain ⟨l1, l2, hl⟩ := List.append_of_mem hal
    have hnd := nodup_getD_of_flatten w.nodup (ht.hashFunction k ht.capacity).toNat
    rw [hl] at hseg hnd
    obtain ⟨mem3, head3, hun, hseg3, _, hfr3⟩ := pUnsplice_seg hseg hnd hr
    have hiL : (ht.hashFunction k ht.capacity).toNat < L.length := by
      rw [← w.chains.1]; exact hi
    have w1 : PWF h
        (PTable.mk mem3 (ht.buckets.set (ht.hashFunction k ht.capacity).toNat head3)
          ht.capacity (ht.size - 1) ht.hashFunction)
        (L.set (ht.hashFunction k ht.capacity).toNat (l1 ++ l2)) := by
      refine ⟨w.hash, w.cap, by simp [w.len], ⟨by simp [w.chains.1], fun j => ?_⟩, ?_⟩
      · simp only
        rw [getD_set_eq _ _ _ _ _ hi, getD_set_eq _ _ _ _ _ hiL]
        by_cases e : j = (ht.hashFunction k ht.capacity).toNat
        · rw [if_pos e, if_pos e]; exact hseg3
        · rw [if_neg e, if_neg e]
          apply Seg.frame _ (w.chains.2 j)
          intro x hx
          apply hfr3 x
          rw [← hl]
          exact disjoint_getD_of_flatten w.nodup e hx
      · apply List.Nodup.sublist (flatten_set_sublist L _ hiL _) w.nodup
        rw [hl]
        exact (List.Sublist.refl _).append (List.sublist_cons_self _ _)
    obtain ⟨ht3, L3, he3, w3⟩ :=
      w1.shrink_returns hh (loadFactorBelow (ht.size - 1) ht.capacity)
    refine ⟨(true, ht3), L3, ?_, w3⟩
    simp only [hr, hun]
    simp only at he3
    split
    · next hc =>
      rw [if_pos hc] at he3
      rw [he3]; rfl
    · next hc =>
      rw [if_neg hc] at he3
      rw [Option.some.injEq] at he3
      rw [he3]

theorem PReachable.pwf {c : Int} {h : Int → Int → Int} (hc : 1 ≤ c) (hh : InRange h)
    {ht : PTable} (r : PReachable c h ht) : ∃ L, PWF h ht L := by
  induction r with
  | create => exact ⟨_, PWF_create h hc⟩
  | insert ht k v ht2 _ he ih =>
    obtain ⟨L, w⟩ := ih
    obtain ⟨ht3, L3, he3, w3⟩ := w.pInsert_returns hh k v
    rw [he, Option.some.injEq] at he3
    rw [he3]
    exact ⟨L3, w3⟩
  | removeKey ht k r _ he ih =>
    obtain ⟨L, w⟩ := ih
    obtain ⟨r3, L3, he3, w3⟩ := w.pRemoveKey_returns hh k
    rw [he, Option.some.injEq] at he3
    rw [he3]
    exact ⟨L3, w3⟩

/-- C18 (doubly linked chain consistency): in every pointer-level table reachable from
`createHashTable(c, h)` (`c ≥ 1`, in-range hash function) by `insert` and `removeKey` calls,
every bucket chain is a consistent doubly linked list over pairwise distinct cells: the
head node has `prev == NULL`, the last node has `next == NULL`, and each node's `next` is
the following cell, whose `prev` points back to it.  On such a table `insert` and
`removeKey` always return (no dangling pointer, no endless scan). -/
theorem chains_doubly_linked (c : Int) (h : Int → Int → Int) (hc : 1 ≤ c) (hh : InRange h)
    (ht : PTable) (r : PReachable c h ht) :
    (∃ L : List (List Nat), L.length = ht.buckets.length ∧ L.flatten.Nodup ∧
        ∀ i : Nat, IsDoublyLinked ht.mem (ht.buckets.getD i none) (L.getD i [])) ∧
      (∀ k v : Int, (pInsert ht k v).isSome) ∧ (∀ k : Int, (pRemoveKey ht k).isSome) := by
  obtain ⟨L, w⟩ := r.pwf hc hh
  refine ⟨⟨L, w.chains.1.symm, w.nodup, fun i => (w.chains.2 i).isDoublyLinked⟩, ?_, ?_⟩
  · intro k v
    obtain ⟨ht2, _, he, _⟩ := w.pInsert_returns hh k v
    rw [he]; rfl
  · intro k
    obtain ⟨r2, _, he, _⟩ := w.pRemoveKey_returns hh k
    rw [he]; rfl

/-- Instance of C18 on the table reached by `insert(5, 500)`, `insert(15, 1500)`, whose
bucket 5 is the two-cell chain `1, 0`. -/
theorem chains_doubly_linked_witness :
    ∃ ht : PTable, ht.mem = [some ⟨5, 500, none, some 1⟩, some ⟨15, 1500, some 0, none⟩] ∧
      ht.buckets.getD 5 none = some 1 ∧
      (∃ L : List (List Nat), L.length = ht.buckets.length ∧ L.flatten.Nodup ∧
        ∀ i : Nat, IsDoublyLinked ht.mem (ht.buckets.getD i none) (L.getD i [])) :=
  ⟨⟨[some ⟨5, 500, none, some 1⟩, some ⟨15, 1500, some 0, none⟩],
      [none, none, none, none, none, some 1, none, none, none, none], 10, 2, foldedHash⟩,
    rfl, rfl,
    (chains_doubly_linked 10 foldedHash (by decide) inRange_foldedHash _
      (PReachable.insert _ 15 1500 _
        (PReachable.insert _ 5 500 _ PReachable.create rfl) rfl)).1⟩

end HandsOn10
